import Mathlib

/-!
Verification of the qualified-name registry (`FunctionRegistryTrie`) and the
pipeline orchestrator (`GraphUpdater`) of `codebase_rag/graph_updater.py`.

The Python code is shallowly embedded: dictionaries become insertion-ordered
association lists, Python sets become `Finset`, and operations that can raise
(`TypeError` on indexing into a string, `AttributeError` in the depth-first
search) return `Option`, with `none` standing for a raised exception.
-/

set_option maxHeartbeats 1000000

/-! ## Character-level string operations (Python `str` methods) -/

/-- Test `chPre pat s`: `pat` is a prefix of `s`, on character lists. -/
def chPre : List Char → List Char → Bool
  | [], _ => true
  | _ :: _, [] => false
  | a :: as, b :: bs => a == b && chPre as bs

/-- Test `chSub nd hs`: `nd` occurs as a contiguous substring of `hs`. -/
def chSub (nd : List Char) : List Char → Bool
  | [] => nd.isEmpty
  | c :: t => chPre nd (c :: t) || chSub nd t

/-- Python `s.startswith(pat)`. -/
def strStartsWith (s pat : String) : Bool := chPre pat.data s.data

/-- Python `s.endswith(pat)`. -/
def strEndsWith (s pat : String) : Bool := chPre pat.data.reverse s.data.reverse

/-- Python `pat in s` for strings: substring containment. -/
def strIn (pat s : String) : Bool := chSub pat.data s.data

/-- Python `s.split(".")` at the character-list level. -/
def splitChars : List Char → List (List Char)
  | [] => [[]]
  | c :: rest =>
    match splitChars rest with
    | [] => [[]]
    | g :: gs => if c = '.' then [] :: g :: gs else (c :: g) :: gs

/-- Python `qualified_name.split(".")`. -/
def splitDot (s : String) : List String := (splitChars s.data).map (fun cs => ⟨cs⟩)

/-- Helper for Python `".".join(...)` on character lists. -/
def joinChars : List (List Char) → List Char
  | [] => []
  | [g] => g
  | g :: gs => g ++ '.' :: joinChars gs

/-- Python `".".join(parts)`. -/
def joinDot (parts : List String) : String := ⟨joinChars (parts.map String.data)⟩

/-! ## Insertion-ordered association lists (Python `dict`) -/

/-- Python `d.get(k)` / `d[k]` lookup: first (unique) matching key. -/
def alookup {κ α : Type} [DecidableEq κ] : List (κ × α) → κ → Option α
  | [], _ => none
  | (k', v) :: rest, k => if k' = k then some v else alookup rest k

/-- Python `d[k] = v`: replace in place if the key exists, else append
(insertion order of Python dicts). -/
def aset {κ α : Type} [DecidableEq κ] : List (κ × α) → κ → α → List (κ × α)
  | [], k, v => [(k, v)]
  | (k', v') :: rest, k, v => if k' = k then (k, v) :: rest else (k', v') :: aset rest k v

/-! ## The trie node graph

A Python trie node is a `dict` whose values are either child dicts or the two
string-valued terminal markers stored under the keys `"__type__"` and
`"__qn__"`. -/

/-- A value stored in a trie-node dictionary: a marker string or a child node. -/
inductive TVal : Type where
  | vstr : String → TVal
  | vdict : List (String × TVal) → TVal

/-- The trie walk of `FunctionRegistryTrie.insert` (lines 34–45): walks/creates the
path for `parts`, then sets the terminal markers.  Returns `none` when the walk
steps onto a marker string, where Python raises `TypeError`. -/
def insertNode : List (String × TVal) → List String → String → String → Option (List (String × TVal))
  | d, [], qn, k => some (aset (aset d "__type__" (TVal.vstr k)) "__qn__" (TVal.vstr qn))
  | d, p :: rest, qn, k =>
    match alookup d p with
    | none => (insertNode [] rest qn k).map (fun c => aset d p (TVal.vdict c))
    | some (TVal.vdict c) => (insertNode c rest qn k).map (fun c2 => aset d p (TVal.vdict c2))
    | some (TVal.vstr _) => none

/-- Outcome of the navigation loop of `find_with_prefix_and_suffix`
(lines 90–95). -/
inductive WalkOut : Type where
  | atVal : TVal → WalkOut
  | emptyRes : WalkOut
  | typeErr : WalkOut

/-- The navigation loop of `find_with_prefix_and_suffix`: `part not in current`
returns `[]`; on a dict, descend; on a string, Python's `in` is a substring
test and a hit indexes the string with a string, raising `TypeError`. -/
def walk : TVal → List String → WalkOut
  | v, [] => WalkOut.atVal v
  | TVal.vdict d, p :: rest =>
    match alookup d p with
    | none => WalkOut.emptyRes
    | some v => walk v rest
  | TVal.vstr s, p :: _ => if strIn p s then WalkOut.typeErr else WalkOut.emptyRes

mutual
/-- The `dfs` closure of `find_with_prefix_and_suffix` (lines 98–106) applied
to one trie value.  On a dict node: collect the node's own `__qn__` marker if
it passes the suffix test, then recurse into the entries in order.  On a
string, Python raises `AttributeError`, modelled as `none`; `none` likewise
models the errors raised when `__qn__` holds a dict. -/
def dfsV : String → TVal → Option (List String)
  | _, TVal.vstr _ => none
  | suffix, TVal.vdict d =>
    match alookup d "__qn__" with
    | some (TVal.vdict _) => none
    | some (TVal.vstr q) =>
      (dfsL suffix d).map (fun l => (if strEndsWith q ("." ++ suffix) then [q] else []) ++ l)
    | none => dfsL suffix d

/-- The child-iteration loop of the `dfs` closure (lines 104–106): keys
starting with `"__"` are skipped as metadata, other values are recursed
into. -/
def dfsL : String → List (String × TVal) → Option (List String)
  | _, [] => some []
  | suffix, (k, v) :: rest =>
    if strStartsWith k "__" then dfsL suffix rest
    else
      match dfsV suffix v, dfsL suffix rest with
      | some a, some b => some (a ++ b)
      | _, _ => none
end

/-! ## The registry -/

/-- Registry `FunctionRegistryTrie` (lines 23–113): the append-only trie rooted at
`root` plus the exact-lookup map `entries` (Python `self._entries`). -/
structure FunctionRegistryTrie : Type where
  root : List (String × TVal)
  entries : List (String × String)

/-- Constructor `FunctionRegistryTrie.__init__`. -/
def emptyFRT : FunctionRegistryTrie := ⟨[], []⟩

/-- Method `insert(qualified_name, func_type)` (lines 30–45): record the kind in the
exact-lookup map and walk/create the trie path.  `none` models the `TypeError`
raised when the walk steps onto a marker string. -/
def FunctionRegistryTrie.insert (t : FunctionRegistryTrie) (qn k : String) :
    Option FunctionRegistryTrie :=
  (insertNode t.root (splitDot qn) qn k).map (fun r => ⟨r, aset t.entries qn k⟩)

/-- Method `get(qualified_name)` (lines 47–49), with the default `None`. -/
def FunctionRegistryTrie.get (t : FunctionRegistryTrie) (qn : String) : Option String :=
  alookup t.entries qn

/-- Method `__contains__` (lines 51–53). -/
def FunctionRegistryTrie.containsQn (t : FunctionRegistryTrie) (qn : String) : Bool :=
  (alookup t.entries qn).isSome

/-- Method `__delitem__` (lines 63–71): delete the exact-lookup entry only; the trie
structure is not touched. -/
def FunctionRegistryTrie.delItem (t : FunctionRegistryTrie) (qn : String) : FunctionRegistryTrie :=
  if (alookup t.entries qn).isSome then
    ⟨t.root, t.entries.filter (fun p => decide (p.1 ≠ qn))⟩
  else t

/-- Method `keys()` (lines 73–75). -/
def FunctionRegistryTrie.keys (t : FunctionRegistryTrie) : List String :=
  t.entries.map Prod.fst

/-- Method `items()` (lines 77–79). -/
def FunctionRegistryTrie.items (t : FunctionRegistryTrie) : List (String × String) :=
  t.entries

/-- Method `__len__` (lines 81–83). -/
def FunctionRegistryTrie.length (t : FunctionRegistryTrie) : Nat :=
  t.entries.length

/-- Expression `prefix.split(".") if prefix else []` (line 88). -/
def prefixPartsOf (pre : String) : List String :=
  if pre = "" then [] else splitDot pre

/-- Method `find_with_prefix_and_suffix(prefix, suffix)` (lines 85–109).  `none`
models a raised exception (navigating onto a marker string then indexing it,
or running the dfs on a string). -/
def FunctionRegistryTrie.find_with_prefix_and_suffix (t : FunctionRegistryTrie)
    (pre suffix : String) : Option (List String) :=
  match walk (TVal.vdict t.root) (prefixPartsOf pre) with
  | WalkOut.emptyRes => some []
  | WalkOut.typeErr => none
  | WalkOut.atVal v => dfsV suffix v

/-- Method `find_ending_with(suffix)` (lines 111–113): a scan over the live
exact-lookup map. -/
def FunctionRegistryTrie.find_ending_with (t : FunctionRegistryTrie) (suffix : String) :
    List String :=
  (t.entries.map Prod.fst).filter (fun qn => strEndsWith qn ("." ++ suffix))

/-! ## Module-qualified-name derivation and file removal -/

/-- Index of the last `'.'` in a file name, for `pathlib` suffix logic. -/
def pyLastDotIdx (cs : List Char) : Option Nat :=
  match cs.reverse.findIdx? (fun c => c == '.') with
  | none => none
  | some j => some (cs.length - 1 - j)

/-- Python `PurePath(name).with_suffix("")` on a file name: drops the final
extension; a leading dot or a trailing dot is not an extension. -/
def pyStem (name : String) : String :=
  match pyLastDotIdx name.data with
  | none => name
  | some i => if 0 < i ∧ i < name.data.length - 1 then ⟨name.data.take i⟩ else name

/-- The module-qualified-name computation of `remove_file_from_state`
(lines 193–202).  A file is identified by its path parts relative to the
repository root (`file_path.relative_to(self.repo_path)`). -/
def fileModuleQn (project : String) (parts : List String) : String :=
  match parts.getLast? with
  | none => joinDot [project]
  | some nm =>
    if nm = "__init__.py" then joinDot (project :: parts.dropLast)
    else joinDot (project :: (parts.dropLast ++ [pyStem nm]))

/-- The ownership test of line 209:
`qn.startswith(module_qn_prefix + ".") or qn == module_qn_prefix`. -/
def belongsTo (modQn qn : String) : Bool :=
  strStartsWith qn (modQn ++ ".") || qn == modQn

/-- The in-memory state owned by `GraphUpdater` (lines 130–133): the project
name, the registry, the simple-name index and the parsed-tree cache.  A cache
value abstracts the `(root_node, language)` pair as `(Nat × String)`. -/
structure GraphUpdater : Type where
  project_name : String
  function_registry : FunctionRegistryTrie
  simple_name_lookup : List (String × Finset String)
  ast_cache : List (List String × (Nat × String))

/-- Method `remove_file_from_state(file_path)` (lines 184–224): drop the cached tree,
compute the module qualified name, delete every owned registry entry (trie
nodes stay), and discard the removed names from every simple-name set that
shrinks. -/
def GraphUpdater.remove_file_from_state (g : GraphUpdater) (fileParts : List String) :
    GraphUpdater :=
  let cache1 :=
    if (alookup g.ast_cache fileParts).isSome then
      g.ast_cache.filter (fun p => decide (p.1 ≠ fileParts))
    else g.ast_cache
  let modQn := fileModuleQn g.project_name fileParts
  let qns_to_remove := (g.function_registry.keys).filter (fun qn => belongsTo modQn qn)
  let reg1 : FunctionRegistryTrie :=
    ⟨g.function_registry.root,
      g.function_registry.entries.filter (fun p => !(belongsTo modQn p.1))⟩
  let rset := qns_to_remove.toFinset
  let simple1 := g.simple_name_lookup.map (fun p =>
    let newSet := p.2 \ rset
    if newSet.card < p.2.card then (p.1, newSet) else p)
  ⟨g.project_name, reg1, simple1, cache1⟩

/-- Defaultdict lookup into the simple-name index. -/
def lookupSet (l : List (String × Finset String)) (n : String) : Finset String :=
  match alookup l n with
  | some s => s
  | none => ∅

/-! ## The pipeline (`GraphUpdater.run`) -/

/-- A source file as the pipeline sees it: its path, the definitions the
definition collaborator registers for it in pass 2, and the call sites the
call collaborator resolves for it in pass 3. -/
structure FileEntry : Type where
  path : List String
  defs : List (String × String)
  calls : List String
deriving DecidableEq

/-- Modelled from the spec: the definition collaborator `process_file` (§6)
"must have registered all definitions found in `path` into the Registry";
a file's contribution is abstracted as its list of (qualified name, kind)
pairs, registered in order. -/
def registerDefs : FunctionRegistryTrie → List (String × String) → Option FunctionRegistryTrie
  | t, [] => some t
  | t, (q, k) :: rest =>
    match t.insert q k with
    | none => none
    | some t2 => registerDefs t2 rest

/-- Pass 2 (`_process_files`, lines 226–255): every file of the repository is
processed, registering its definitions, before the function returns. -/
def processFiles : FunctionRegistryTrie → List FileEntry → Option FunctionRegistryTrie
  | t, [] => some t
  | t, f :: rest =>
    match registerDefs t f.defs with
    | none => none
    | some t2 => processFiles t2 rest

/-- Modelled from the spec: the call-resolution collaborator (§6) resolves
each call site read-only against the registry; a call site is abstracted as
the qualified name it looks up via exact lookup. -/
def resolveCalls (t : FunctionRegistryTrie) (files : List FileEntry) :
    List (List (Option String)) :=
  files.map (fun f => f.calls.map (fun q => t.get q))

/-- Pipeline `GraphUpdater.run` (lines 159–182): pass 2 (`_process_files`) completes
over the whole repository, then pass 3 (`_process_function_calls`) resolves
calls from the cache against the finished registry. -/
def runPipeline (files : List FileEntry) : Option (List (List (Option String))) :=
  match processFiles emptyFRT files with
  | none => none
  | some reg => some (resolveCalls reg files)

/-! ## Association-list lemmas -/

theorem alookup_aset_self {κ α : Type} [DecidableEq κ] (d : List (κ × α)) (k : κ) (v : α) :
    alookup (aset d k v) k = some v := by
  induction d with
  | nil => simp [aset, alookup]
  | cons p rest ih =>
    obtain ⟨k', v'⟩ := p
    by_cases h : k' = k
    · subst h; simp [aset, alookup]
    · simp [aset, alookup, h, ih]

theorem alookup_aset_ne {κ α : Type} [DecidableEq κ] (d : List (κ × α)) (k x : κ) (v : α)
    (hx : x ≠ k) : alookup (aset d k v) x = alookup d x := by
  induction d with
  | nil => simp [aset, alookup, Ne.symm hx]
  | cons p rest ih =>
    obtain ⟨k', v'⟩ := p
    by_cases h : k' = k
    · subst h; simp [aset, alookup, Ne.symm hx]
    · simp [aset, alookup, h, ih]

theorem mem_of_alookup {κ α : Type} [DecidableEq κ] {d : List (κ × α)} {k : κ} {v : α}
    (h : alookup d k = some v) : (k, v) ∈ d := by
  induction d with
  | nil => simp [alookup] at h
  | cons p rest ih =>
    obtain ⟨k', v'⟩ := p
    by_cases hk : k' = k
    · subst hk
      simp [alookup] at h
      simp [h]
    · simp [alookup, hk] at h
      exact List.mem_cons_of_mem _ (ih h)

theorem alookup_eq_none {κ α : Type} [DecidableEq κ] (d : List (κ × α)) (k : κ) :
    alookup d k = none ↔ k ∉ d.map Prod.fst := by
  induction d with
  | nil => simp [alookup]
  | cons p rest ih =>
    obtain ⟨k', v'⟩ := p
    by_cases hk : k' = k
    · subst hk; simp [alookup]
    · simp [alookup, hk, ih, Ne.symm hk]

theorem keys_aset_mem {κ α : Type} [DecidableEq κ] (d : List (κ × α)) (k : κ) (v : α)
    (h : k ∈ d.map Prod.fst) : (aset d k v).map Prod.fst = d.map Prod.fst := by
  induction d with
  | nil => simp at h
  | cons p rest ih =>
    obtain ⟨k', v'⟩ := p
    by_cases hk : k' = k
    · subst hk; simp [aset]
    · rw [List.map_cons] at h
      rcases List.mem_cons.mp h with he | h2
      · exact absurd he.symm hk
      · simp only [aset, if_neg hk, List.map_cons, ih h2]

theorem keys_aset_notmem {κ α : Type} [DecidableEq κ] (d : List (κ × α)) (k : κ) (v : α)
    (h : k ∉ d.map Prod.fst) : (aset d k v).map Prod.fst = d.map Prod.fst ++ [k] := by
  induction d with
  | nil => simp [aset]
  | cons p rest ih =>
    obtain ⟨k', v'⟩ := p
    rw [List.map_cons] at h
    have hk : ¬k' = k := fun he => h (by rw [he]; exact List.mem_cons_self _ _)
    have h2 : k ∉ rest.map Prod.fst := fun hm => h (List.mem_cons_of_mem _ hm)
    simp only [aset, if_neg hk, List.map_cons, ih h2, List.cons_append]

theorem length_aset_mem {κ α : Type} [DecidableEq κ] (d : List (κ × α)) (k : κ) (v : α)
    (h : k ∈ d.map Prod.fst) : (aset d k v).length = d.length := by
  have := keys_aset_mem d k v h
  have h1 : ((aset d k v).map Prod.fst).length = (d.map Prod.fst).length := by rw [this]
  simpa using h1

theorem nodup_keys_aset {κ α : Type} [DecidableEq κ] (d : List (κ × α)) (k : κ) (v : α)
    (h : (d.map Prod.fst).Nodup) : ((aset d k v).map Prod.fst).Nodup := by
  by_cases hk : k ∈ d.map Prod.fst
  · rw [keys_aset_mem d k v hk]; exact h
  · rw [keys_aset_notmem d k v hk]
    rw [List.nodup_append]
    refine ⟨h, List.nodup_singleton k, fun x hx hy => ?_⟩
    rw [List.mem_singleton] at hy
    subst hy
    exact hk hx

theorem alookup_filter_key {κ α : Type} [DecidableEq κ] (d : List (κ × α)) (f : κ → Bool)
    (k : κ) : alookup (d.filter (fun p => f p.1)) k = if f k then alookup d k else none := by
  induction d with
  | nil => simp [alookup]
  | cons p rest ih =>
    obtain ⟨k', v'⟩ := p
    by_cases hk : k' = k
    · subst hk
      by_cases hf : f k' <;> simp [List.filter_cons, hf, alookup, ih]
    · by_cases hf : f k' <;> simp [List.filter_cons, hf, alookup, hk, ih]

/-! ## Character-level lemmas -/

theorem chPre_eq_true_iff (p s : List Char) : chPre p s = true ↔ ∃ r, s = p ++ r := by
  induction p generalizing s with
  | nil => simp [chPre]
  | cons a as ih =>
    cases s with
    | nil => simp [chPre]
    | cons b bs =>
      simp only [chPre, Bool.and_eq_true, beq_iff_eq, ih, List.cons_append, List.cons.injEq]
      constructor
      · rintro ⟨h1, r, h2⟩; exact ⟨r, h1.symm, h2⟩
      · rintro ⟨r, h1, h2⟩; exact ⟨h1.symm, r, h2⟩

theorem strEndsWith_iff (s pat : String) :
    strEndsWith s pat = true ↔ ∃ r, s.data = r ++ pat.data := by
  unfold strEndsWith
  rw [chPre_eq_true_iff]
  constructor
  · rintro ⟨r, h⟩
    refine ⟨r.reverse, ?_⟩
    have h2 := congrArg List.reverse h
    simpa using h2
  · rintro ⟨r, h⟩
    exact ⟨r.reverse, by rw [h]; simp⟩

theorem strStartsWith_iff (s pat : String) :
    strStartsWith s pat = true ↔ ∃ r, s.data = pat.data ++ r := by
  unfold strStartsWith
  rw [chPre_eq_true_iff]

theorem splitChars_ne_nil (cs : List Char) : splitChars cs ≠ [] := by
  induction cs with
  | nil => simp [splitChars]
  | cons c rest ih =>
    simp only [splitChars]
    cases h : splitChars rest with
    | nil => simp
    | cons g gs => by_cases hc : c = '.' <;> simp [hc]

theorem splitChars_dotFree (cs : List Char) : ∀ g ∈ splitChars cs, '.' ∉ g := by
  induction cs with
  | nil =>
    intro g hg
    simp [splitChars] at hg
    simp [hg]
  | cons c rest ih =>
    intro g hg
    simp only [splitChars] at hg
    cases h : splitChars rest with
    | nil => exact absurd h (splitChars_ne_nil rest)
    | cons g0 gs =>
      rw [h] at hg
      have ih0 : '.' ∉ g0 := ih g0 (h ▸ List.mem_cons_self _ _)
      have ihs : ∀ x ∈ gs, '.' ∉ x := fun x hx => ih x (h ▸ List.mem_cons_of_mem _ hx)
      by_cases hc : c = '.'
      · subst hc
        simp only [if_pos rfl] at hg
        rcases List.mem_cons.mp hg with hg | hg
        · simp [hg]
        · rcases List.mem_cons.mp hg with hg | hg
          · exact hg ▸ ih0
          · exact ihs g hg
      · simp only [if_neg hc] at hg
        rcases List.mem_cons.mp hg with hg | hg
        · subst hg
          intro hmem
          rcases List.mem_cons.mp hmem with hd | hd
          · exact hc hd.symm
          · exact ih0 hd
        · exact ihs g hg

theorem joinChars_single (g : List Char) : joinChars [g] = g := rfl

theorem joinChars_cons (g : List Char) (g1 : List Char) (gs : List (List Char)) :
    joinChars (g :: g1 :: gs) = g ++ '.' :: joinChars (g1 :: gs) := rfl

theorem joinChars_splitChars (cs : List Char) : joinChars (splitChars cs) = cs := by
  induction cs with
  | nil => rfl
  | cons c rest ih =>
    simp only [splitChars]
    cases h : splitChars rest with
    | nil => exact absurd h (splitChars_ne_nil rest)
    | cons g gs =>
      rw [h] at ih
      by_cases hc : c = '.'
      · subst hc
        simp [joinChars_cons, ih]
      · simp only [if_neg hc]
        cases gs with
        | nil =>
          simp only [joinChars_single] at ih
          simp only [joinChars_single, ih]
        | cons g1 gs1 =>
          rw [joinChars_cons] at ih ⊢
          rw [List.cons_append, ih]

theorem splitChars_append (as bs : List Char) :
    splitChars (as ++ '.' :: bs) = splitChars as ++ splitChars bs := by
  induction as with
  | nil =>
    simp only [List.nil_append, splitChars]
    cases h : splitChars bs with
    | nil => exact absurd h (splitChars_ne_nil bs)
    | cons g gs => simp
  | cons c as' ih =>
    cases h : splitChars as' with
    | nil => exact absurd h (splitChars_ne_nil as')
    | cons g gs =>
      have hL : splitChars ((c :: as') ++ '.' :: bs) =
          match splitChars (as' ++ '.' :: bs) with
          | [] => [[]]
          | g :: gs => if c = '.' then [] :: g :: gs else (c :: g) :: gs := rfl
      have hR : splitChars (c :: as') =
          match splitChars as' with
          | [] => [[]]
          | g :: gs => if c = '.' then [] :: g :: gs else (c :: g) :: gs := rfl
      rw [hL, hR, ih, h]
      simp only [List.cons_append]
      by_cases hc : c = '.' <;> simp [hc]

theorem splitChars_of_dotFree (g : List Char) (h : '.' ∉ g) : splitChars g = [g] := by
  induction g with
  | nil => rfl
  | cons c g' ih =>
    have hc : c ≠ '.' := fun he => h (he ▸ List.mem_cons_self _ _)
    have h' : '.' ∉ g' := fun hm => h (List.mem_cons_of_mem _ hm)
    simp only [splitChars, ih h', if_neg hc]

theorem splitChars_joinChars (gs : List (List Char)) (hne : gs ≠ [])
    (hdf : ∀ g ∈ gs, '.' ∉ g) : splitChars (joinChars gs) = gs := by
  induction gs with
  | nil => exact absurd rfl hne
  | cons g gs' ih =>
    cases gs' with
    | nil => simpa [joinChars_single] using splitChars_of_dotFree g (hdf g (List.mem_cons_self _ _))
    | cons g1 gs1 =>
      rw [joinChars_cons, splitChars_append]
      rw [splitChars_of_dotFree g (hdf g (List.mem_cons_self _ _))]
      rw [ih (by simp) (fun x hx => hdf x (List.mem_cons_of_mem _ hx))]
      simp

/-! ## String-level split/join lemmas -/

/-- A string with no dot in it (a single path segment). -/
def dotFreeStr (s : String) : Prop := '.' ∉ s.data

theorem splitDot_ne_nil (s : String) : splitDot s ≠ [] := by
  unfold splitDot
  intro h
  exact splitChars_ne_nil s.data (List.map_eq_nil_iff.mp h)

theorem splitDot_dotFree (s : String) : ∀ g ∈ splitDot s, dotFreeStr g := by
  intro g hg
  unfold splitDot at hg
  rcases List.mem_map.mp hg with ⟨cs, hcs, rfl⟩
  exact splitChars_dotFree s.data cs hcs

theorem joinDot_splitDot (s : String) : joinDot (splitDot s) = s := by
  apply String.ext
  show joinChars (((splitChars s.data).map (fun cs => (⟨cs⟩ : String))).map String.data) = s.data
  rw [List.map_map]
  have h1 : (String.data ∘ fun cs => (⟨cs⟩ : String)) = id := funext (fun _ => rfl)
  rw [h1, List.map_id]
  exact joinChars_splitChars s.data

theorem splitDot_joinDot (L : List String) (hne : L ≠ [])
    (hdf : ∀ g ∈ L, dotFreeStr g) : splitDot (joinDot L) = L := by
  have hmap : ∀ g ∈ L.map String.data, '.' ∉ g := by
    intro g hg
    rcases List.mem_map.mp hg with ⟨x, hx, rfl⟩
    exact hdf x hx
  have hne2 : L.map String.data ≠ [] := fun h => hne (List.map_eq_nil_iff.mp h)
  show (splitChars (joinDot L).data).map (fun cs => (⟨cs⟩ : String)) = L
  have hd : (joinDot L).data = joinChars (L.map String.data) := rfl
  rw [hd, splitChars_joinChars _ hne2 hmap, List.map_map]
  have h1 : ((fun cs => (⟨cs⟩ : String)) ∘ String.data) = id :=
    funext (fun s => by cases s; rfl)
  rw [h1, List.map_id]

theorem joinDot_inj {L M : List String} (hLne : L ≠ []) (hMne : M ≠ [])
    (hLdf : ∀ g ∈ L, dotFreeStr g) (hMdf : ∀ g ∈ M, dotFreeStr g)
    (h : joinDot L = joinDot M) : L = M := by
  have h2 := congrArg splitDot h
  rwa [splitDot_joinDot L hLne hLdf, splitDot_joinDot M hMne hMdf] at h2

theorem splitDot_append_dot (p r : String) :
    splitDot (p ++ "." ++ r) = splitDot p ++ splitDot r := by
  unfold splitDot
  have h : (p ++ "." ++ r).data = p.data ++ '.' :: r.data := by
    rw [String.data_append, String.data_append]
    simp [show ("." : String).data = ['.'] from rfl]
  rw [h, splitChars_append, List.map_append]

theorem joinChars_concat (gs : List (List Char)) (g : List Char) (h : gs ≠ []) :
    joinChars (gs ++ [g]) = joinChars gs ++ '.' :: g := by
  induction gs with
  | nil => exact absurd rfl h
  | cons g0 gs' ih =>
    cases gs' with
    | nil => rfl
    | cons g1 gs1 =>
      have hstep : (g0 :: g1 :: gs1) ++ [g] = g0 :: ((g1 :: gs1) ++ [g]) := rfl
      rw [hstep]
      have hcons : (g1 :: gs1) ++ [g] = g1 :: (gs1 ++ [g]) := rfl
      rw [hcons, joinChars_cons, ← hcons, ih (by simp), joinChars_cons]
      simp [List.append_assoc]

theorem strEndsWith_join_last {q p rest s : String}
    (hq : q = p ++ "." ++ rest) (hl : (splitDot rest).getLast? = some s) :
    strEndsWith q ("." ++ s) = true := by
  rw [strEndsWith_iff]
  obtain ⟨init, hinit⟩ := List.getLast?_eq_some_iff.mp hl
  have hrest : rest = joinDot (init ++ [s]) := by
    rw [← hinit, joinDot_splitDot]
  have hqdata : q.data = p.data ++ '.' :: rest.data := by
    rw [hq, String.data_append, String.data_append]
    simp [show ("." : String).data = ['.'] from rfl]
  have hpat : (("." ++ s) : String).data = '.' :: s.data := by
    rw [String.data_append]; rfl
  cases init with
  | nil =>
    refine ⟨p.data, ?_⟩
    rw [hqdata, hpat]
    have hr : rest.data = s.data := by rw [hrest]; rfl
    rw [hr]
  | cons i0 is =>
    refine ⟨p.data ++ '.' :: joinChars ((i0 :: is).map String.data), ?_⟩
    rw [hqdata, hpat]
    have hr : rest.data = joinChars ((i0 :: is).map String.data) ++ '.' :: s.data := by
      rw [hrest]
      show joinChars (((i0 :: is) ++ [s]).map String.data) = _
      rw [List.map_append]
      exact joinChars_concat _ _ (by simp)
    rw [hr]
    simp [List.append_assoc]

/-! ## Trie well-formedness -/

/-- A path segment that does not collide with the metadata keys of trie nodes. -/
def okSeg (s : String) : Prop := s ≠ "__type__" ∧ s ≠ "__qn__"

instance (s : String) : Decidable (okSeg s) := by unfold okSeg; infer_instance

/-- A qualified name none of whose dot-segments collides with a metadata key. -/
def okQn (q : String) : Prop := ∀ s ∈ splitDot q, okSeg s

instance (q : String) : Decidable (okQn q) := by unfold okQn; infer_instance

/-- Well-formedness of a trie node reached by segment path `P` from the root:
the `__qn__` marker (if present) is the dotted join of the path, the
`__type__` marker (if present) is a string, and every other key is a dot-free
segment holding a well-formed child node. -/
inductive Wf : List String → List (String × TVal) → Prop where
  | nil (P : List String) : Wf P []
  | qnm (P : List String) (rest : List (String × TVal)) :
      Wf P rest → Wf P (("__qn__", TVal.vstr (joinDot P)) :: rest)
  | tym (P : List String) (rest : List (String × TVal)) (s : String) :
      Wf P rest → Wf P (("__type__", TVal.vstr s) :: rest)
  | child (P : List String) (rest : List (String × TVal)) (k : String)
      (c : List (String × TVal)) :
      k ≠ "__qn__" → k ≠ "__type__" → dotFreeStr k → Wf (P ++ [k]) c → Wf P rest →
      Wf P ((k, TVal.vdict c) :: rest)

theorem wf_nil (P : List String) : Wf P [] := Wf.nil P

theorem Wf.mem {P : List String} {d : List (String × TVal)} (h : Wf P d) :
    ∀ k v, (k, v) ∈ d →
      (k = "__qn__" ∧ v = TVal.vstr (joinDot P)) ∨
      (k = "__type__" ∧ ∃ s, v = TVal.vstr s) ∨
      (k ≠ "__qn__" ∧ k ≠ "__type__" ∧ dotFreeStr k ∧
        ∃ c, v = TVal.vdict c ∧ Wf (P ++ [k]) c) := by
  induction h with
  | nil P => simp
  | qnm P rest hrest ih =>
    intro k v hm
    rcases List.mem_cons.mp hm with he | hm'
    · injection he with h1 h2
      subst h1; subst h2
      exact Or.inl ⟨rfl, rfl⟩
    · exact ih k v hm'
  | tym P rest s hrest ih =>
    intro k v hm
    rcases List.mem_cons.mp hm with he | hm'
    · injection he with h1 h2
      subst h1; subst h2
      exact Or.inr (Or.inl ⟨rfl, s, rfl⟩)
    · exact ih k v hm'
  | child P rest k0 c h1 h2 hdf hc hrest ihc ih =>
    intro k v hm
    rcases List.mem_cons.mp hm with he | hm'
    · injection he with he1 he2
      subst he1; subst he2
      exact Or.inr (Or.inr ⟨h1, h2, hdf, c, rfl, hc⟩)
    · exact ih k v hm'

theorem mem_aset {κ α : Type} [DecidableEq κ] {d : List (κ × α)} {k : κ} {v : α} {x : κ × α}
    (h : x ∈ aset d k v) : x = (k, v) ∨ x ∈ d := by
  induction d with
  | nil => simpa [aset] using h
  | cons p rest ih =>
    obtain ⟨k', v'⟩ := p
    by_cases hk : k' = k
    · subst hk
      rcases (by simpa [aset] using h : x = (k', v) ∨ x ∈ rest) with h1 | h1
      · exact Or.inl h1
      · exact Or.inr (List.mem_cons_of_mem _ h1)
    · rcases (by simpa [aset, hk] using h : x = (k', v') ∨ x ∈ aset rest k v) with h1 | h1
      · exact Or.inr (h1 ▸ List.mem_cons_self _ _)
      · rcases ih h1 with h2 | h2
        · exact Or.inl h2
        · exact Or.inr (List.mem_cons_of_mem _ h2)

theorem wf_aset_ty {P : List String} {d : List (String × TVal)} (hwf : Wf P d) (s : String) :
    Wf P (aset d "__type__" (TVal.vstr s)) := by
  induction hwf with
  | nil P => exact Wf.tym P [] s (Wf.nil P)
  | qnm P rest hrest ih =>
    rw [show aset (("__qn__", TVal.vstr (joinDot P)) :: rest) "__type__" (TVal.vstr s) =
        ("__qn__", TVal.vstr (joinDot P)) :: aset rest "__type__" (TVal.vstr s) from by
      simp [aset]]
    exact Wf.qnm P _ ih
  | tym P rest s' hrest ih =>
    rw [show aset (("__type__", TVal.vstr s') :: rest) "__type__" (TVal.vstr s) =
        ("__type__", TVal.vstr s) :: rest from by simp [aset]]
    exact Wf.tym P rest s hrest
  | child P rest k0 c h1 h2 hdf hc hrest ihc ih =>
    rw [show aset ((k0, TVal.vdict c) :: rest) "__type__" (TVal.vstr s) =
        (k0, TVal.vdict c) :: aset rest "__type__" (TVal.vstr s) from by simp [aset, h2]]
    exact Wf.child P _ k0 c h1 h2 hdf hc ih

theorem wf_aset_qn {P : List String} {d : List (String × TVal)} (hwf : Wf P d) :
    Wf P (aset d "__qn__" (TVal.vstr (joinDot P))) := by
  induction hwf with
  | nil P => exact Wf.qnm P [] (Wf.nil P)
  | qnm P rest hrest ih =>
    rw [show aset (("__qn__", TVal.vstr (joinDot P)) :: rest) "__qn__"
          (TVal.vstr (joinDot P)) = ("__qn__", TVal.vstr (joinDot P)) :: rest from by
      simp [aset]]
    exact Wf.qnm P rest hrest
  | tym P rest s' hrest ih =>
    rw [show aset (("__type__", TVal.vstr s') :: rest) "__qn__" (TVal.vstr (joinDot P)) =
        ("__type__", TVal.vstr s') :: aset rest "__qn__" (TVal.vstr (joinDot P)) from by
      simp [aset]]
    exact Wf.tym P _ s' ih
  | child P rest k0 c h1 h2 hdf hc hrest ihc ih =>
    rw [show aset ((k0, TVal.vdict c) :: rest) "__qn__" (TVal.vstr (joinDot P)) =
        (k0, TVal.vdict c) :: aset rest "__qn__" (TVal.vstr (joinDot P)) from by
      simp [aset, h1]]
    exact Wf.child P _ k0 c h1 h2 hdf hc ih

theorem wf_aset_child {P : List String} {d c : List (String × TVal)} {k : String}
    (hwf : Wf P d) (h1 : k ≠ "__qn__") (h2 : k ≠ "__type__") (hdf : dotFreeStr k)
    (hc : Wf (P ++ [k]) c) : Wf P (aset d k (TVal.vdict c)) := by
  induction hwf with
  | nil P => exact Wf.child P [] k c h1 h2 hdf hc (Wf.nil P)
  | qnm P rest hrest ih =>
    rw [show aset (("__qn__", TVal.vstr (joinDot P)) :: rest) k (TVal.vdict c) =
        ("__qn__", TVal.vstr (joinDot P)) :: aset rest k (TVal.vdict c) from by
      simp [aset, Ne.symm h1]]
    exact Wf.qnm P _ (ih hc)
  | tym P rest s' hrest ih =>
    rw [show aset (("__type__", TVal.vstr s') :: rest) k (TVal.vdict c) =
        ("__type__", TVal.vstr s') :: aset rest k (TVal.vdict c) from by
      simp [aset, Ne.symm h2]]
    exact Wf.tym P _ s' (ih hc)
  | child P rest k0 c0 h1' h2' hdf' hc' hrest ihc ih =>
    by_cases hk : k0 = k
    · subst hk
      rw [show aset ((k0, TVal.vdict c0) :: rest) k0 (TVal.vdict c) =
          (k0, TVal.vdict c) :: rest from by simp [aset]]
      exact Wf.child P rest k0 c h1 h2 hdf hc hrest
    · rw [show aset ((k0, TVal.vdict c0) :: rest) k (TVal.vdict c) =
          (k0, TVal.vdict c0) :: aset rest k (TVal.vdict c) from by simp [aset, hk]]
      exact Wf.child P _ k0 c0 h1' h2' hdf' hc' (ih hc)

theorem wf_lookup_child {P : List String} {d : List (String × TVal)} {p : String} {v : TVal}
    (hwf : Wf P d) (h1 : p ≠ "__type__") (h2 : p ≠ "__qn__")
    (hl : alookup d p = some v) : ∃ c, v = TVal.vdict c ∧ Wf (P ++ [p]) c := by
  rcases hwf.mem p v (mem_of_alookup hl) with ⟨hk, _⟩ | ⟨hk, _⟩ | ⟨_, _, _, c, rfl, hwfc⟩
  · exact absurd hk h2
  · exact absurd hk h1
  · exact ⟨c, rfl, hwfc⟩

theorem wf_lookup_qn {P : List String} {d : List (String × TVal)} {v : TVal}
    (hwf : Wf P d) (hl : alookup d "__qn__" = some v) : v = TVal.vstr (joinDot P) := by
  rcases hwf.mem _ _ (mem_of_alookup hl) with ⟨_, hv⟩ | ⟨hk, _⟩ | ⟨hk, _, _⟩
  · exact hv
  · exact absurd hk (by decide)
  · exact absurd rfl hk

theorem wf_lookup_nonuscore {P : List String} {d : List (String × TVal)} {p : String} {v : TVal}
    (hwf : Wf P d) (hp : strStartsWith p "__" = false) (hm : (p, v) ∈ d) :
    p ≠ "__qn__" ∧ p ≠ "__type__" ∧ dotFreeStr p ∧
      ∃ c, v = TVal.vdict c ∧ Wf (P ++ [p]) c := by
  rcases hwf.mem p v hm with ⟨hk, _⟩ | ⟨hk, _⟩ | hgood
  · subst hk; exact absurd hp (by decide)
  · subst hk; exact absurd hp (by decide)
  · exact hgood

/-! ## Trie paths created by insertion -/

/-- Following `parts` from node `d` through child dictionaries reaches a node
whose `__qn__` marker is the string `q`. -/
inductive Chain : List (String × TVal) → List String → String → Prop where
  | nil (d : List (String × TVal)) (q : String) :
      alookup d "__qn__" = some (TVal.vstr q) → Chain d [] q
  | cons (d : List (String × TVal)) (k : String) (rest : List String)
      (c : List (String × TVal)) (q : String) :
      alookup d k = some (TVal.vdict c) → Chain c rest q → Chain d (k :: rest) q

theorem insertNode_chain {parts : List String} :
    ∀ {d d2 : List (String × TVal)} {qn k : String},
    insertNode d parts qn k = some d2 → Chain d2 parts qn := by
  induction parts with
  | nil =>
    intro d d2 qn k h
    simp only [insertNode, Option.some.injEq] at h
    subst h
    exact Chain.nil _ _ (alookup_aset_self _ _ _)
  | cons p rest ih =>
    intro d d2 qn k h
    simp only [insertNode] at h
    cases hl : alookup d p with
    | none =>
      rw [hl] at h
      have h2 : (insertNode [] rest qn k).map (fun c => aset d p (TVal.vdict c)) = some d2 := h
      cases hc : insertNode [] rest qn k with
      | none => rw [hc] at h2; simp at h2
      | some c2 =>
        rw [hc] at h2
        simp only [Option.map_some', Option.some.injEq] at h2
        subst h2
        exact Chain.cons _ _ _ _ _ (alookup_aset_self _ _ _) (ih hc)
    | some v =>
      rw [hl] at h
      cases v with
      | vstr s =>
        have h2 : (none : Option (List (String × TVal))) = some d2 := h
        exact absurd h2 (by simp)
      | vdict c =>
        have h2 : (insertNode c rest qn k).map (fun c2 => aset d p (TVal.vdict c2)) = some d2 := h
        cases hc : insertNode c rest qn k with
        | none => rw [hc] at h2; simp at h2
        | some c2 =>
          rw [hc] at h2
          simp only [Option.map_some', Option.some.injEq] at h2
          subst h2
          exact Chain.cons _ _ _ _ _ (alookup_aset_self _ _ _) (ih hc)

theorem insertNode_markers {parts : List String} :
    ∀ {d d2 : List (String × TVal)} {qn k : String},
    insertNode d parts qn k = some d2 →
    ∃ nd, walk (TVal.vdict d2) parts = WalkOut.atVal (TVal.vdict nd) ∧
      alookup nd "__type__" = some (TVal.vstr k) ∧
      alookup nd "__qn__" = some (TVal.vstr qn) := by
  induction parts with
  | nil =>
    intro d d2 qn k h
    simp only [insertNode, Option.some.injEq] at h
    subst h
    refine ⟨_, rfl, ?_, alookup_aset_self _ _ _⟩
    rw [alookup_aset_ne _ _ _ _ (by decide)]
    exact alookup_aset_self _ _ _
  | cons p rest ih =>
    intro d d2 qn k h
    simp only [insertNode] at h
    cases hl : alookup d p with
    | none =>
      rw [hl] at h
      have h2 : (insertNode [] rest qn k).map (fun c => aset d p (TVal.vdict c)) = some d2 := h
      cases hc : insertNode [] rest qn k with
      | none => rw [hc] at h2; simp at h2
      | some c2 =>
        rw [hc] at h2
        simp only [Option.map_some', Option.some.injEq] at h2
        subst h2
        obtain ⟨nd, hw, hty, hqn⟩ := ih hc
        refine ⟨nd, ?_, hty, hqn⟩
        rw [show walk (TVal.vdict (aset d p (TVal.vdict c2))) (p :: rest) =
            walk (TVal.vdict c2) rest from by
          simp [walk, alookup_aset_self]]
        exact hw
    | some v =>
      rw [hl] at h
      cases v with
      | vstr s =>
        have h2 : (none : Option (List (String × TVal))) = some d2 := h
        exact absurd h2 (by simp)
      | vdict c =>
        have h2 : (insertNode c rest qn k).map (fun c2 => aset d p (TVal.vdict c2)) = some d2 := h
        cases hc : insertNode c rest qn k with
        | none => rw [hc] at h2; simp at h2
        | some c2 =>
          rw [hc] at h2
          simp only [Option.map_some', Option.some.injEq] at h2
          subst h2
          obtain ⟨nd, hw, hty, hqn⟩ := ih hc
          refine ⟨nd, ?_, hty, hqn⟩
          rw [show walk (TVal.vdict (aset d p (TVal.vdict c2))) (p :: rest) =
              walk (TVal.vdict c2) rest from by
            simp [walk, alookup_aset_self]]
          exact hw

theorem chain_walk {pp : List String} :
    ∀ {d : List (String × TVal)} {rest : List String} {q : String},
    Chain d (pp ++ rest) q →
    ∃ mid, walk (TVal.vdict d) pp = WalkOut.atVal (TVal.vdict mid) ∧ Chain mid rest q := by
  induction pp with
  | nil => intro d rest q h; exact ⟨d, rfl, h⟩
  | cons p pp' ih =>
    intro d rest q h
    rw [List.cons_append] at h
    cases h with
    | cons _ _ _ c _ hl hc =>
      obtain ⟨mid, hw, hcm⟩ := ih hc
      refine ⟨mid, ?_, hcm⟩
      rw [show walk (TVal.vdict d) (p :: pp') = walk (TVal.vdict c) pp' from by
        simp [walk, hl]]
      exact hw

/-- Predicate: `q` is collected by the `dfs` closure run on node `d`: a path of
non-metadata keys (none starting with `"__"`) leads from `d` to a node whose
`__qn__` marker is `q`, and `q` passes the suffix test. -/
inductive Collects (suffix : String) : List (String × TVal) → String → Prop where
  | here (d : List (String × TVal)) (q : String) :
      alookup d "__qn__" = some (TVal.vstr q) → strEndsWith q ("." ++ suffix) = true →
      Collects suffix d q
  | there (d : List (String × TVal)) (k : String) (c : List (String × TVal)) (q : String) :
      (k, TVal.vdict c) ∈ d → strStartsWith k "__" = false → Collects suffix c q →
      Collects suffix d q

theorem chain_collects {rest : List String} {suffix : String} :
    ∀ {d : List (String × TVal)} {q : String},
    Chain d rest q → (∀ x ∈ rest, strStartsWith x "__" = false) →
    strEndsWith q ("." ++ suffix) = true → Collects suffix d q := by
  induction rest with
  | nil =>
    intro d q h hns hend
    cases h with
    | nil _ _ hl => exact Collects.here d q hl hend
  | cons p rest' ih =>
    intro d q h hns hend
    cases h with
    | cons _ _ _ c _ hl hc =>
      exact Collects.there d p c q (mem_of_alookup hl)
        (hns p (List.mem_cons_self _ _)) (ih hc (fun x hx => hns x (List.mem_cons_of_mem _ hx)) hend)

theorem walk_wf {parts : List String} :
    ∀ {P : List String} {d mid : List (String × TVal)},
    Wf P d → (∀ x ∈ parts, x ≠ "__type__" ∧ x ≠ "__qn__") →
    walk (TVal.vdict d) parts = WalkOut.atVal (TVal.vdict mid) →
    Wf (P ++ parts) mid := by
  induction parts with
  | nil =>
    intro P d mid hwf _ hw
    simp only [walk, WalkOut.atVal.injEq, TVal.vdict.injEq] at hw
    subst hw
    simpa using hwf
  | cons p rest ih =>
    intro P d mid hwf hsegs hw
    have hp := hsegs p (List.mem_cons_self _ _)
    cases hl : alookup d p with
    | none =>
      rw [show walk (TVal.vdict d) (p :: rest) = WalkOut.emptyRes from by simp [walk, hl]] at hw
      exact absurd hw (by simp)
    | some v =>
      obtain ⟨c, rfl, hwfc⟩ := wf_lookup_child hwf hp.1 hp.2 hl
      rw [show walk (TVal.vdict d) (p :: rest) = walk (TVal.vdict c) rest from by
        simp [walk, hl]] at hw
      have h2 := ih hwfc (fun x hx => hsegs x (List.mem_cons_of_mem _ hx)) hw
      rwa [List.append_assoc] at h2
      -- goal : Wf (P ++ p :: rest) mid from Wf ((P ++ [p]) ++ rest) mid

/-! ## Properties of the dfs closure -/

theorem dfsV_vstr (suffix s : String) : dfsV suffix (TVal.vstr s) = none := by
  rw [dfsV]

theorem dfsL_nil (suffix : String) : dfsL suffix [] = some [] := by
  rw [dfsL]

theorem dfsL_cons_skip {k : String} (suffix : String) (v : TVal)
    (rest : List (String × TVal)) (hk : strStartsWith k "__" = true) :
    dfsL suffix ((k, v) :: rest) = dfsL suffix rest := by
  rw [dfsL]
  simp [hk]

theorem dfsL_cons_go {k : String} {v : TVal} {rest : List (String × TVal)} (suffix : String)
    (hk : strStartsWith k "__" = false) :
    dfsL suffix ((k, v) :: rest) =
      match dfsV suffix v, dfsL suffix rest with
      | some a, some b => some (a ++ b)
      | _, _ => none := by
  rw [dfsL]
  simp [hk]

theorem dfsV_dict_eq (suffix : String) (d : List (String × TVal)) :
    dfsV suffix (TVal.vdict d) =
      match alookup d "__qn__" with
      | some (TVal.vdict _) => none
      | some (TVal.vstr q) =>
        (dfsL suffix d).map (fun l => (if strEndsWith q ("." ++ suffix) then [q] else []) ++ l)
      | none => dfsL suffix d := by
  rw [dfsV]

theorem dfsV_decomp {suffix : String} {d : List (String × TVal)} {l : List String}
    (h : dfsV suffix (TVal.vdict d) = some l) :
    ∃ hd le, dfsL suffix d = some le ∧ l = hd ++ le ∧
      (∀ x ∈ hd, alookup d "__qn__" = some (TVal.vstr x) ∧
        strEndsWith x ("." ++ suffix) = true) ∧
      (∀ v, alookup d "__qn__" = some (TVal.vstr v) →
        strEndsWith v ("." ++ suffix) = true → v ∈ hd) := by
  rw [dfsV_dict_eq] at h
  cases hq : alookup d "__qn__" with
  | none =>
    rw [hq] at h
    have h2 : dfsL suffix d = some l := h
    exact ⟨[], l, h2, rfl, by simp, fun v hv => absurd hv (by simp)⟩
  | some v0 =>
    cases v0 with
    | vdict c =>
      rw [hq] at h
      have h2 : (none : Option (List String)) = some l := h
      exact absurd h2 (by simp)
    | vstr q0 =>
      rw [hq] at h
      have h2 : (dfsL suffix d).map
          (fun l => (if strEndsWith q0 ("." ++ suffix) then [q0] else []) ++ l) = some l := h
      cases he : dfsL suffix d with
      | none => rw [he] at h2; simp at h2
      | some le =>
        rw [he] at h2
        simp only [Option.map_some', Option.some.injEq] at h2
        refine ⟨if strEndsWith q0 ("." ++ suffix) then [q0] else [], le, rfl, h2.symm, ?_, ?_⟩
        · intro x hx
          by_cases hend : strEndsWith q0 ("." ++ suffix)
          · rw [if_pos hend] at hx
            rw [List.mem_singleton] at hx
            subst hx
            exact ⟨rfl, hend⟩
          · rw [if_neg hend] at hx
            simp at hx
        · intro v hv hend
          injection hv with hv
          injection hv with hv
          subst hv
          rw [if_pos hend]
          exact List.mem_singleton.mpr rfl

theorem dfsL_sound {suffix q : String} :
    ∀ {e : List (String × TVal)} {l : List String}, dfsL suffix e = some l → q ∈ l →
    ∃ k c lc, (k, TVal.vdict c) ∈ e ∧ strStartsWith k "__" = false ∧
      dfsV suffix (TVal.vdict c) = some lc ∧ q ∈ lc := by
  intro e
  induction e with
  | nil =>
    intro l h hq
    rw [dfsL_nil] at h
    injection h with h
    subst h
    simp at hq
  | cons p rest ih =>
    intro l h hq
    obtain ⟨k, v⟩ := p
    by_cases hk : strStartsWith k "__" = true
    · rw [dfsL_cons_skip suffix v rest hk] at h
      obtain ⟨k', c, lc, hm, hns, hd, hql⟩ := ih h hq
      exact ⟨k', c, lc, List.mem_cons_of_mem _ hm, hns, hd, hql⟩
    · have hk' : strStartsWith k "__" = false := by simpa using hk
      rw [dfsL_cons_go suffix hk'] at h
      cases hd : dfsV suffix v with
      | none =>
        rw [hd] at h
        have h2 : (none : Option (List String)) = some l := h
        exact absurd h2 (by simp)
      | some a =>
        rw [hd] at h
        cases he : dfsL suffix rest with
        | none =>
          rw [he] at h
          have h2 : (none : Option (List String)) = some l := h
          exact absurd h2 (by simp)
        | some b =>
          rw [he] at h
          have h2 : some (a ++ b) = some l := h
          injection h2 with h2
          subst h2
          rcases List.mem_append.mp hq with hqa | hqb
          · cases v with
            | vstr s => rw [dfsV_vstr] at hd; cases hd
            | vdict c => exact ⟨k, c, a, List.mem_cons_self _ _, hk', hd, hqa⟩
          · obtain ⟨k', c', lc, hm, hns, hd', hql⟩ := ih he hqb
            exact ⟨k', c', lc, List.mem_cons_of_mem _ hm, hns, hd', hql⟩

theorem dfsL_extract {suffix : String} :
    ∀ {e : List (String × TVal)} {l : List String} {k : String} {c : List (String × TVal)},
    dfsL suffix e = some l → (k, TVal.vdict c) ∈ e → strStartsWith k "__" = false →
    ∃ lc, dfsV suffix (TVal.vdict c) = some lc := by
  intro e
  induction e with
  | nil => intro l k c _ hm _; simp at hm
  | cons p rest ih =>
    intro l k c h hm hns
    obtain ⟨k0, v0⟩ := p
    by_cases hk : strStartsWith k0 "__" = true
    · rw [dfsL_cons_skip suffix v0 rest hk] at h
      rcases List.mem_cons.mp hm with he | hm'
      · injection he with he1 he2
        rw [he1] at hns
        rw [hns] at hk
        exact absurd hk (by decide)
      · exact ih h hm' hns
    · have hk' : strStartsWith k0 "__" = false := by simpa using hk
      rw [dfsL_cons_go suffix hk'] at h
      cases hd : dfsV suffix v0 with
      | none =>
        rw [hd] at h
        have h2 : (none : Option (List String)) = some l := h
        exact absurd h2 (by simp)
      | some a =>
        rw [hd] at h
        cases he : dfsL suffix rest with
        | none =>
          rw [he] at h
          have h2 : (none : Option (List String)) = some l := h
          exact absurd h2 (by simp)
        | some b =>
          rcases List.mem_cons.mp hm with hhe | hm'
          · injection hhe with he1 he2
            rw [← he2] at hd
            exact ⟨a, hd⟩
          · exact ih he hm' hns

theorem dfsL_complete {suffix q : String} :
    ∀ {e : List (String × TVal)} {l : List String} {k : String} {c : List (String × TVal)}
      {lc : List String},
    dfsL suffix e = some l → (k, TVal.vdict c) ∈ e → strStartsWith k "__" = false →
    dfsV suffix (TVal.vdict c) = some lc → q ∈ lc → q ∈ l := by
  intro e
  induction e with
  | nil => intro l k c lc _ hm _ _ _; simp at hm
  | cons p rest ih =>
    intro l k c lc h hm hns hd hq
    obtain ⟨k0, v0⟩ := p
    by_cases hk : strStartsWith k0 "__" = true
    · rw [dfsL_cons_skip suffix v0 rest hk] at h
      rcases List.mem_cons.mp hm with he | hm'
      · injection he with he1 he2
        rw [he1] at hns
        rw [hns] at hk
        exact absurd hk (by decide)
      · exact ih h hm' hns hd hq
    · have hk' : strStartsWith k0 "__" = false := by simpa using hk
      rw [dfsL_cons_go suffix hk'] at h
      cases hd0 : dfsV suffix v0 with
      | none =>
        rw [hd0] at h
        have h2 : (none : Option (List String)) = some l := h
        exact absurd h2 (by simp)
      | some a =>
        rw [hd0] at h
        cases he : dfsL suffix rest with
        | none =>
          rw [he] at h
          have h2 : (none : Option (List String)) = some l := h
          exact absurd h2 (by simp)
        | some b =>
          rw [he] at h
          have h2 : some (a ++ b) = some l := h
          injection h2 with h2
          subst h2
          rcases List.mem_cons.mp hm with hhe | hm'
          · injection hhe with he1 he2
            rw [← he2] at hd0
            rw [hd] at hd0
            injection hd0 with hd0
            subst hd0
            exact List.mem_append_left _ hq
          · exact List.mem_append_right _ (ih he hm' hns hd hq)

theorem sizeOf_child_lt {k : String} {c d : List (String × TVal)}
    (hm : (k, TVal.vdict c) ∈ d) : sizeOf c < sizeOf d := by
  induction d with
  | nil => simp at hm
  | cons p rest ih =>
    rcases List.mem_cons.mp hm with he | hm'
    · rw [← he]
      simp
      omega
    · have h1 := ih hm'
      have h2 : sizeOf rest < sizeOf (p :: rest) := by
        obtain ⟨a, b⟩ := p
        simp
      omega

theorem dfs_sound (n : Nat) : ∀ (d : List (String × TVal)) (suffix q : String) (l : List String),
    sizeOf d ≤ n → dfsV suffix (TVal.vdict d) = some l → q ∈ l → Collects suffix d q := by
  induction n using Nat.strong_induction_on with
  | _ n ihn =>
    intro d suffix q l hsz h hq
    obtain ⟨hd, le, he, rfl, hhd, _⟩ := dfsV_decomp h
    rcases List.mem_append.mp hq with hq1 | hq2
    · obtain ⟨hqn, hend⟩ := hhd q hq1
      exact Collects.here d q hqn hend
    · obtain ⟨k, c, lc, hm, hns, hdc, hql⟩ := dfsL_sound he hq2
      have hlt : sizeOf c < n := lt_of_lt_of_le (sizeOf_child_lt hm) hsz
      exact Collects.there d k c q hm hns (ihn (sizeOf c) hlt c suffix q lc le_rfl hdc hql)

theorem dfs_complete (n : Nat) : ∀ (d : List (String × TVal)) (suffix q : String)
    (l : List String), sizeOf d ≤ n → Collects suffix d q →
    dfsV suffix (TVal.vdict d) = some l → q ∈ l := by
  induction n using Nat.strong_induction_on with
  | _ n ihn =>
    intro d suffix q l hsz hcol h
    obtain ⟨hd, le, he, rfl, _, hmem⟩ := dfsV_decomp h
    cases hcol with
    | here _ _ hqn hend =>
      exact List.mem_append_left _ (hmem q hqn hend)
    | there _ k c _ hm hns hcolc =>
      obtain ⟨lc, hdc⟩ := dfsL_extract he hm hns
      have hlt : sizeOf c < n := lt_of_lt_of_le (sizeOf_child_lt hm) hsz
      have hql : q ∈ lc := ihn (sizeOf c) hlt c suffix q lc le_rfl hcolc hdc
      exact List.mem_append_right _ (dfsL_complete he hm hns hdc hql)

theorem dfs_total (n : Nat) : ∀ (P : List String) (d : List (String × TVal)) (suffix : String),
    sizeOf d ≤ n → Wf P d → ∃ l, dfsV suffix (TVal.vdict d) = some l := by
  induction n using Nat.strong_induction_on with
  | _ n ihn =>
    intro P d suffix hsz hwf
    have hent : ∀ (e : List (String × TVal)), (∀ x, x ∈ e → x ∈ d) → sizeOf e ≤ sizeOf d →
        ∃ le, dfsL suffix e = some le := by
      intro e
      induction e with
      | nil => intro _ _; exact ⟨[], dfsL_nil suffix⟩
      | cons p rest ihe =>
        intro hsub hsz2
        obtain ⟨k, v⟩ := p
        have hszr : sizeOf rest ≤ sizeOf d := by
          have : sizeOf rest < sizeOf ((k, v) :: rest) := by simp
          omega
        obtain ⟨lr, hlr⟩ := ihe (fun x hx => hsub x (List.mem_cons_of_mem _ hx)) hszr
        by_cases hk : strStartsWith k "__" = true
        · exact ⟨lr, by rw [dfsL_cons_skip suffix v rest hk]; exact hlr⟩
        · have hk' : strStartsWith k "__" = false := by simpa using hk
          obtain ⟨_, _, _, c, rfl, hwfc⟩ :=
            wf_lookup_nonuscore hwf hk' (hsub _ (List.mem_cons_self _ _))
          have hszc : sizeOf c < n := by
            have h1 : sizeOf c < sizeOf ((k, TVal.vdict c) :: rest) := by simp; omega
            omega
          obtain ⟨lc, hlc⟩ := ihn (sizeOf c) hszc (P ++ [k]) c suffix le_rfl hwfc
          refine ⟨lc ++ lr, ?_⟩
          rw [dfsL_cons_go suffix hk', hlc, hlr]
    obtain ⟨le, hle⟩ := hent d (fun x hx => hx) le_rfl
    rw [dfsV_dict_eq]
    cases hq : alookup d "__qn__" with
    | none => exact ⟨le, hle⟩
    | some v =>
      have hv := wf_lookup_qn hwf hq
      subst hv
      refine ⟨(if strEndsWith (joinDot P) ("." ++ suffix) then [joinDot P] else []) ++ le, ?_⟩
      show (dfsL suffix d).map
          (fun l => (if strEndsWith (joinDot P) ("." ++ suffix) then [joinDot P] else []) ++ l) =
        some _
      rw [hle]
      rfl

/-! ## Insertion success and preservation of well-formedness -/

theorem insertNode_wf {parts : List String} :
    ∀ {P : List String} {d : List (String × TVal)} {qn k : String},
    Wf P d → (∀ x ∈ parts, x ≠ "__type__" ∧ x ≠ "__qn__" ∧ dotFreeStr x) →
    qn = joinDot (P ++ parts) →
    ∃ d2, insertNode d parts qn k = some d2 ∧ Wf P d2 := by
  induction parts with
  | nil =>
    intro P d qn k hwf _ hqn
    rw [List.append_nil] at hqn
    subst hqn
    exact ⟨_, rfl, wf_aset_qn (wf_aset_ty hwf k)⟩
  | cons p rest ih =>
    intro P d qn k hwf hsegs hqn
    have hp := hsegs p (List.mem_cons_self _ _)
    have hsegs' : ∀ x ∈ rest, x ≠ "__type__" ∧ x ≠ "__qn__" ∧ dotFreeStr x :=
      fun x hx => hsegs x (List.mem_cons_of_mem _ hx)
    have hqn' : qn = joinDot ((P ++ [p]) ++ rest) := by
      rw [hqn, List.append_assoc]
      rfl
    cases hl : alookup d p with
    | none =>
      obtain ⟨c2, hc2, hwfc2⟩ := @ih (P ++ [p]) [] qn k (wf_nil _) hsegs' hqn'
      refine ⟨aset d p (TVal.vdict c2), ?_, ?_⟩
      · show (match alookup d p with
          | none => (insertNode [] rest qn k).map (fun c => aset d p (TVal.vdict c))
          | some (TVal.vdict c) => (insertNode c rest qn k).map (fun c2 => aset d p (TVal.vdict c2))
          | some (TVal.vstr _) => none) = some (aset d p (TVal.vdict c2))
        rw [hl, hc2]
        rfl
      · exact wf_aset_child hwf hp.2.1 hp.1 hp.2.2 hwfc2
    | some v =>
      obtain ⟨c, rfl, hwfc⟩ := wf_lookup_child hwf hp.1 hp.2.1 hl
      obtain ⟨c2, hc2, hwfc2⟩ := @ih (P ++ [p]) c qn k hwfc hsegs' hqn'
      refine ⟨aset d p (TVal.vdict c2), ?_, ?_⟩
      · show (match alookup d p with
          | none => (insertNode [] rest qn k).map (fun c => aset d p (TVal.vdict c))
          | some (TVal.vdict c) => (insertNode c rest qn k).map (fun c2 => aset d p (TVal.vdict c2))
          | some (TVal.vstr _) => none) = some (aset d p (TVal.vdict c2))
        rw [hl]
        show (insertNode c rest qn k).map (fun c2 => aset d p (TVal.vdict c2)) =
          some (aset d p (TVal.vdict c2))
        rw [hc2]
        rfl
      · exact wf_aset_child hwf hp.2.1 hp.1 hp.2.2 hwfc2

/-! ## Registry-level wrappers -/

/-- Registry states whose trie is well-formed (as produced by any sequence of
`insert`s of qualified names avoiding the metadata keys, and by removals). -/
def RegWf (t : FunctionRegistryTrie) : Prop := Wf [] t.root

theorem regWf_empty : RegWf emptyFRT := wf_nil []

theorem insert_eq_some {t t2 : FunctionRegistryTrie} {qn k : String}
    (h : t.insert qn k = some t2) :
    ∃ r, insertNode t.root (splitDot qn) qn k = some r ∧
      t2 = ⟨r, aset t.entries qn k⟩ := by
  unfold FunctionRegistryTrie.insert at h
  cases hr : insertNode t.root (splitDot qn) qn k with
  | none => rw [hr] at h; simp at h
  | some r =>
    rw [hr] at h
    simp only [Option.map_some', Option.some.injEq] at h
    exact ⟨r, rfl, h.symm⟩

theorem insert_total_of_wf {t : FunctionRegistryTrie} {qn : String} (k : String)
    (hwf : RegWf t) (hok : okQn qn) :
    ∃ t2, t.insert qn k = some t2 ∧ RegWf t2 ∧ t2.entries = aset t.entries qn k ∧
      t2.root = (insertNode t.root (splitDot qn) qn k).getD [] := by
  have hsegs : ∀ x ∈ splitDot qn, x ≠ "__type__" ∧ x ≠ "__qn__" ∧ dotFreeStr x := by
    intro x hx
    obtain ⟨h1, h2⟩ := hok x hx
    exact ⟨h1, h2, splitDot_dotFree qn x hx⟩
  have hqn : qn = joinDot ([] ++ splitDot qn) := by
    rw [List.nil_append, joinDot_splitDot]
  obtain ⟨d2, hd2, hwf2⟩ := insertNode_wf hwf hsegs hqn
  refine ⟨⟨d2, aset t.entries qn k⟩, ?_, hwf2, rfl, by rw [hd2]; rfl⟩
  unfold FunctionRegistryTrie.insert
  rw [hd2]
  rfl

theorem insert_wf_of_eq {t t2 : FunctionRegistryTrie} {qn k : String}
    (hwf : RegWf t) (hok : okQn qn) (h : t.insert qn k = some t2) : RegWf t2 := by
  obtain ⟨t3, h3, hwf3, _, _⟩ := insert_total_of_wf k hwf hok
  rw [h] at h3
  injection h3 with h3
  rw [h3]
  exact hwf3

/-! ## Counting trie nodes (for the no-duplicate-path property) -/

mutual
/-- Number of dictionary nodes in a trie value. -/
def countVal : TVal → Nat
  | TVal.vstr _ => 0
  | TVal.vdict d => 1 + countEntries d

/-- Number of dictionary nodes strictly below a node's entry list. -/
def countEntries : List (String × TVal) → Nat
  | [] => 0
  | (_, v) :: rest => countVal v + countEntries rest
end

theorem countEntries_aset_vstr_none {d : List (String × TVal)} {k s : String}
    (h : alookup d k = none) :
    countEntries (aset d k (TVal.vstr s)) = countEntries d := by
  induction d with
  | nil => simp [aset, countEntries, countVal]
  | cons p rest ih =>
    obtain ⟨k', v'⟩ := p
    by_cases hk : k' = k
    · subst hk; simp [alookup] at h
    · rw [show alookup ((k', v') :: rest) k = alookup rest k from by simp [alookup, hk]] at h
      rw [show aset ((k', v') :: rest) k (TVal.vstr s) = (k', v') :: aset rest k (TVal.vstr s)
        from by simp [aset, hk]]
      simp [countEntries, ih h]

theorem countEntries_aset_vstr_some {d : List (String × TVal)} {k s w : String}
    (h : alookup d k = some (TVal.vstr w)) :
    countEntries (aset d k (TVal.vstr s)) = countEntries d := by
  induction d with
  | nil => simp [alookup] at h
  | cons p rest ih =>
    obtain ⟨k', v'⟩ := p
    by_cases hk : k' = k
    · subst hk
      rw [show alookup ((k', v') :: rest) k' = some v' from by simp [alookup]] at h
      injection h with h
      subst h
      rw [show aset ((k', TVal.vstr w) :: rest) k' (TVal.vstr s) = (k', TVal.vstr s) :: rest
        from by simp [aset]]
      simp [countEntries, countVal]
    · rw [show alookup ((k', v') :: rest) k = alookup rest k from by simp [alookup, hk]] at h
      rw [show aset ((k', v') :: rest) k (TVal.vstr s) = (k', v') :: aset rest k (TVal.vstr s)
        from by simp [aset, hk]]
      simp [countEntries, ih h]

theorem countEntries_aset_vdict {d : List (String × TVal)} {k : String}
    {c c2 : List (String × TVal)} (h : alookup d k = some (TVal.vdict c))
    (hc : countEntries c2 = countEntries c) :
    countEntries (aset d k (TVal.vdict c2)) = countEntries d := by
  induction d with
  | nil => simp [alookup] at h
  | cons p rest ih =>
    obtain ⟨k', v'⟩ := p
    by_cases hk : k' = k
    · subst hk
      rw [show alookup ((k', v') :: rest) k' = some v' from by simp [alookup]] at h
      injection h with h
      subst h
      rw [show aset ((k', TVal.vdict c) :: rest) k' (TVal.vdict c2) =
          (k', TVal.vdict c2) :: rest from by simp [aset]]
      simp [countEntries, countVal, hc]
    · rw [show alookup ((k', v') :: rest) k = alookup rest k from by simp [alookup, hk]] at h
      rw [show aset ((k', v') :: rest) k (TVal.vdict c2) = (k', v') :: aset rest k (TVal.vdict c2)
        from by simp [aset, hk]]
      simp [countEntries, ih h]

theorem insertNode_reinsert_count {parts : List String} :
    ∀ {d d1 : List (String × TVal)} {qn k qn2 k2 : String},
    insertNode d parts qn k = some d1 →
    ∃ d2, insertNode d1 parts qn2 k2 = some d2 ∧ countEntries d2 = countEntries d1 := by
  induction parts with
  | nil =>
    intro d d1 qn k qn2 k2 h
    simp only [insertNode, Option.some.injEq] at h
    subst h
    refine ⟨_, rfl, ?_⟩
    have hty : alookup (aset (aset d "__type__" (TVal.vstr k)) "__qn__" (TVal.vstr qn))
        "__type__" = some (TVal.vstr k) := by
      rw [alookup_aset_ne _ _ _ _ (by decide)]
      exact alookup_aset_self _ _ _
    have h1 := @countEntries_aset_vstr_some _ _ k2 _ hty
    have hqn2 : alookup (aset (aset (aset d "__type__" (TVal.vstr k)) "__qn__" (TVal.vstr qn))
        "__type__" (TVal.vstr k2)) "__qn__" = some (TVal.vstr qn) := by
      rw [alookup_aset_ne _ _ _ _ (by decide)]
      exact alookup_aset_self _ _ _
    have h2 := @countEntries_aset_vstr_some _ _ qn2 _ hqn2
    rw [h2, h1]
  | cons p rest ih =>
    intro d d1 qn k qn2 k2 h
    simp only [insertNode] at h
    cases hl : alookup d p with
    | none =>
      rw [hl] at h
      have h2 : (insertNode [] rest qn k).map (fun c => aset d p (TVal.vdict c)) = some d1 := h
      cases hc : insertNode [] rest qn k with
      | none => rw [hc] at h2; simp at h2
      | some c1 =>
        rw [hc] at h2
        simp only [Option.map_some', Option.some.injEq] at h2
        subst h2
        obtain ⟨c2, hc2, hcnt⟩ := ih hc
        have hl1 : alookup (aset d p (TVal.vdict c1)) p = some (TVal.vdict c1) :=
          alookup_aset_self _ _ _
        refine ⟨aset (aset d p (TVal.vdict c1)) p (TVal.vdict c2), ?_, ?_⟩
        · show (match alookup (aset d p (TVal.vdict c1)) p with
            | none => (insertNode [] rest qn2 k2).map
                (fun c => aset (aset d p (TVal.vdict c1)) p (TVal.vdict c))
            | some (TVal.vdict c) => (insertNode c rest qn2 k2).map
                (fun c2 => aset (aset d p (TVal.vdict c1)) p (TVal.vdict c2))
            | some (TVal.vstr _) => none) = _
          rw [hl1]
          show (insertNode c1 rest qn2 k2).map
              (fun c2 => aset (aset d p (TVal.vdict c1)) p (TVal.vdict c2)) = _
          rw [hc2]
          rfl
        · exact countEntries_aset_vdict hl1 hcnt
    | some v =>
      rw [hl] at h
      cases v with
      | vstr s =>
        have h2 : (none : Option (List (String × TVal))) = some d1 := h
        exact absurd h2 (by simp)
      | vdict c =>
        have h2 : (insertNode c rest qn k).map (fun c2 => aset d p (TVal.vdict c2)) = some d1 := h
        cases hc : insertNode c rest qn k with
        | none => rw [hc] at h2; simp at h2
        | some c1 =>
          rw [hc] at h2
          simp only [Option.map_some', Option.some.injEq] at h2
          subst h2
          obtain ⟨c2, hc2, hcnt⟩ := ih hc
          have hl1 : alookup (aset d p (TVal.vdict c1)) p = some (TVal.vdict c1) :=
            alookup_aset_self _ _ _
          refine ⟨aset (aset d p (TVal.vdict c1)) p (TVal.vdict c2), ?_, ?_⟩
          · show (match alookup (aset d p (TVal.vdict c1)) p with
              | none => (insertNode [] rest qn2 k2).map
                  (fun c => aset (aset d p (TVal.vdict c1)) p (TVal.vdict c))
              | some (TVal.vdict c) => (insertNode c rest qn2 k2).map
                  (fun c2 => aset (aset d p (TVal.vdict c1)) p (TVal.vdict c2))
              | some (TVal.vstr _) => none) = _
            rw [hl1]
            show (insertNode c1 rest qn2 k2).map
                (fun c2 => aset (aset d p (TVal.vdict c1)) p (TVal.vdict c2)) = _
            rw [hc2]
            rfl
          · exact countEntries_aset_vdict hl1 hcnt

/-! ## Folding registrations over the exact-lookup map -/

/-- The value the last occurrence of key `x` in `L` holds, if any (the winner
after inserting the pairs of `L` in order). -/
def lastVal : List (String × String) → String → Option String
  | [], _ => none
  | (q, v) :: rest, x =>
    match lastVal rest x with
    | some w => some w
    | none => if q = x then some v else none

theorem alookup_foldl_aset (L : List (String × String)) :
    ∀ (e : List (String × String)) (x : String),
    alookup (L.foldl (fun e p => aset e p.1 p.2) e) x =
      match lastVal L x with
      | some w => some w
      | none => alookup e x := by
  induction L with
  | nil => intro e x; rfl
  | cons p L' ih =>
    intro e x
    obtain ⟨q, v⟩ := p
    rw [List.foldl_cons, ih]
    cases hL : lastVal L' x with
    | some w => simp [lastVal, hL]
    | none =>
      simp only [lastVal, hL]
      by_cases hq : q = x
      · subst hq
        simp [alookup_aset_self]
      · rw [if_neg hq]
        rw [alookup_aset_ne _ _ _ _ (fun he => hq he.symm)]

theorem lastVal_none_of_notmem {L : List (String × String)} {x : String}
    (h : x ∉ L.map Prod.fst) : lastVal L x = none := by
  induction L with
  | nil => rfl
  | cons p L' ih =>
    obtain ⟨q, v⟩ := p
    rw [List.map_cons] at h
    have hq : q ≠ x := fun he => h (he ▸ List.mem_cons_self _ _)
    have h' : x ∉ L'.map Prod.fst := fun hm => h (List.mem_cons_of_mem _ hm)
    simp [lastVal, ih h', hq]

theorem lastVal_eq_of_mem {L : List (String × String)} {q k : String}
    (hnd : (L.map Prod.fst).Nodup) (hm : (q, k) ∈ L) : lastVal L q = some k := by
  induction L with
  | nil => simp at hm
  | cons p L' ih =>
    obtain ⟨q', v'⟩ := p
    rw [List.map_cons, List.nodup_cons] at hnd
    rcases List.mem_cons.mp hm with he | hm'
    · injection he with h1 h2
      subst h1
      subst h2
      have hnone : lastVal L' q = none := lastVal_none_of_notmem hnd.1
      simp [lastVal, hnone]
    · simp [lastVal, ih hnd.2 hm']

theorem registerDefs_total {L : List (String × String)} :
    ∀ {t : FunctionRegistryTrie}, RegWf t → (∀ p ∈ L, okQn p.1) →
    ∃ t2, registerDefs t L = some t2 ∧ RegWf t2 ∧
      t2.entries = L.foldl (fun e p => aset e p.1 p.2) t.entries := by
  induction L with
  | nil => intro t hwf _; exact ⟨t, rfl, hwf, rfl⟩
  | cons p L' ih =>
    intro t hwf hok
    obtain ⟨q, k⟩ := p
    obtain ⟨t1, h1, hwf1, he1, _⟩ :=
      insert_total_of_wf k hwf (hok (q, k) (List.mem_cons_self _ _))
    obtain ⟨t2, h2, hwf2, he2⟩ := ih hwf1 (fun x hx => hok x (List.mem_cons_of_mem _ hx))
    refine ⟨t2, ?_, hwf2, ?_⟩
    · show (match FunctionRegistryTrie.insert t q k with
        | none => none
        | some t2 => registerDefs t2 L') = some t2
      rw [h1]
      exact h2
    · rw [he2, he1]
      rfl

theorem processFiles_total {files : List FileEntry} :
    ∀ {t : FunctionRegistryTrie}, RegWf t →
    (∀ f ∈ files, ∀ p ∈ f.defs, okQn p.1) →
    ∃ t2, processFiles t files = some t2 ∧ RegWf t2 ∧
      t2.entries = (files.flatMap (fun f => f.defs)).foldl
        (fun e p => aset e p.1 p.2) t.entries := by
  induction files with
  | nil => intro t hwf _; exact ⟨t, rfl, hwf, rfl⟩
  | cons f files' ih =>
    intro t hwf hok
    obtain ⟨t1, h1, hwf1, he1⟩ :=
      registerDefs_total hwf (hok f (List.mem_cons_self _ _))
    obtain ⟨t2, h2, hwf2, he2⟩ := ih hwf1 (fun g hg => hok g (List.mem_cons_of_mem _ hg))
    refine ⟨t2, ?_, hwf2, ?_⟩
    · show (match registerDefs t f.defs with
        | none => none
        | some t2 => processFiles t2 files') = some t2
      rw [h1]
      exact h2
    · rw [he2, he1, List.flatMap_cons, List.foldl_append]

/-! ## Structure extensionality helpers -/

theorem frtExt {a b : FunctionRegistryTrie}
    (h1 : a.root = b.root) (h2 : a.entries = b.entries) : a = b := by
  cases a
  cases b
  simp_all

theorem guExt {a b : GraphUpdater}
    (h1 : a.project_name = b.project_name)
    (h2 : a.function_registry = b.function_registry)
    (h3 : a.simple_name_lookup = b.simple_name_lookup)
    (h4 : a.ast_cache = b.ast_cache) : a = b := by
  cases a
  cases b
  simp_all

/-! ## Claim C7 -/

/-- Modelled from the spec (§3, Module-Qualified-Name Prefix): "for a
package-initializer file, it is `project.<dir-path-segments>`; for any other
source file, it is `project.<path-segments-without-extension>`", stated on a
directory path plus a file name. -/
def specModuleQn (project : String) (dirs : List String) (nm : String) : String :=
  if nm = "__init__.py" then joinDot (project :: dirs)
  else joinDot (project :: (dirs ++ [pyStem nm]))

/-- C7: the module-qualified-name computed during removal is derived
deterministically from the file's repo-relative path: for `__init__.py` it is
the project name joined with the parent directory's parts
(`project.pkg.sub` for `pkg/sub/__init__.py`), otherwise the project name
joined with the path parts with the extension stripped
(`project.pkg.sub.mod` for `pkg/sub/mod.py`). -/
theorem c7_module_qn_derivation :
    (∀ (project : String) (dirs : List String) (nm : String),
      fileModuleQn project (dirs ++ [nm]) = specModuleQn project dirs nm) ∧
    fileModuleQn "project" ["pkg", "sub", "__init__.py"] = "project.pkg.sub" ∧
    fileModuleQn "project" ["pkg", "sub", "mod.py"] = "project.pkg.sub.mod" := by
  refine ⟨?_, by decide, by decide⟩
  intro project dirs nm
  unfold fileModuleQn specModuleQn
  rw [List.getLast?_concat, List.dropLast_concat]

/-- Witness for C7's universally quantified clause at a concrete input. -/
theorem c7_witness :
    fileModuleQn "p" (["d"] ++ ["m.py"]) = specModuleQn "p" ["d"] "m.py" :=
  c7_module_qn_derivation.1 "p" ["d"] "m.py"

/-! ## Claim C5 -/

/-- C5: `find_ending_with` requires a dot boundary: with exactly `pkg.foo` and
`pkg.barfoo` inserted (either order, any kinds), `find_ending_with "foo"`
returns exactly `["pkg.foo"]`; in general a live qualified name is returned
iff it ends with `"."` followed by the suffix. -/
theorem c5_find_ending_with_dot_boundary :
    (∀ (k1 k2 : String) (t : FunctionRegistryTrie),
      ((emptyFRT.insert "pkg.foo" k1).bind (fun u => u.insert "pkg.barfoo" k2) = some t ∨
       (emptyFRT.insert "pkg.barfoo" k2).bind (fun u => u.insert "pkg.foo" k1) = some t) →
      t.find_ending_with "foo" = ["pkg.foo"]) ∧
    (∀ (t : FunctionRegistryTrie) (suffix q : String),
      q ∈ t.find_ending_with suffix ↔
        q ∈ t.keys ∧ strEndsWith q ("." ++ suffix) = true) := by
  constructor
  · intro k1 k2 t h
    have hent : t.entries = [("pkg.foo", k1), ("pkg.barfoo", k2)] ∨
        t.entries = [("pkg.barfoo", k2), ("pkg.foo", k1)] := by
      rcases h with h | h
      · left
        have he : ((emptyFRT.insert "pkg.foo" k1).bind
            (fun u => u.insert "pkg.barfoo" k2)).map FunctionRegistryTrie.entries =
            some [("pkg.foo", k1), ("pkg.barfoo", k2)] := rfl
        rw [h] at he
        have he2 : some t.entries = some [("pkg.foo", k1), ("pkg.barfoo", k2)] := he
        injection he2
      · right
        have he : ((emptyFRT.insert "pkg.barfoo" k2).bind
            (fun u => u.insert "pkg.foo" k1)).map FunctionRegistryTrie.entries =
            some [("pkg.barfoo", k2), ("pkg.foo", k1)] := rfl
        rw [h] at he
        have he2 : some t.entries = some [("pkg.barfoo", k2), ("pkg.foo", k1)] := he
        injection he2
    unfold FunctionRegistryTrie.find_ending_with
    rcases hent with he | he <;> rw [he] <;> rfl
  · intro t suffix q
    unfold FunctionRegistryTrie.find_ending_with FunctionRegistryTrie.keys
    rw [List.mem_filter]

/-- Witness for C5 at concrete kinds and the registry obtained by inserting
`pkg.foo` then `pkg.barfoo`. -/
theorem c5_witness :
    ((emptyFRT.insert "pkg.foo" "function").bind
        (fun u => u.insert "pkg.barfoo" "function") =
      some (((emptyFRT.insert "pkg.foo" "function").bind
        (fun u => u.insert "pkg.barfoo" "function")).getD emptyFRT)) ∧
    (((emptyFRT.insert "pkg.foo" "function").bind
        (fun u => u.insert "pkg.barfoo" "function")).getD emptyFRT).find_ending_with "foo" =
      ["pkg.foo"] :=
  ⟨rfl, c5_find_ending_with_dot_boundary.1 "function" "function" _ (Or.inl rfl)⟩

/-! ## Claim C6 -/

/-- C6: re-registration overwrites instead of duplicating: after
`insert x K1` then `insert x K2` on a registry with duplicate-free keys,
`get x` is `K2`, `x` is counted once by `len()` (the second insert does not
change the length), `x` appears exactly once in `keys()`, and no duplicate
trie path is created (the trie node count is unchanged by the second
insert). -/
theorem c6_insert_overwrites (t t1 t2 : FunctionRegistryTrie) (x k1 k2 : String)
    (hnd : (t.entries.map Prod.fst).Nodup)
    (h1 : t.insert x k1 = some t1) (h2 : t1.insert x k2 = some t2) :
    t2.get x = some k2 ∧ t2.keys.count x = 1 ∧ t2.length = t1.length ∧
    countEntries t2.root = countEntries t1.root := by
  obtain ⟨r1, hr1, ht1⟩ := insert_eq_some h1
  obtain ⟨r2, hr2, ht2⟩ := insert_eq_some h2
  subst ht1
  subst ht2
  have hmem1 : x ∈ (aset t.entries x k1).map Prod.fst := by
    by_contra hx
    have hx2 : alookup (aset t.entries x k1) x = none := (alookup_eq_none _ _).mpr hx
    rw [alookup_aset_self] at hx2
    cases hx2
  constructor
  · exact alookup_aset_self _ _ _
  constructor
  · show ((aset (aset t.entries x k1) x k2).map Prod.fst).count x = 1
    rw [keys_aset_mem _ _ _ hmem1]
    exact List.count_eq_one_of_mem (nodup_keys_aset _ _ _ hnd) hmem1
  constructor
  · show (aset (aset t.entries x k1) x k2).length = (aset t.entries x k1).length
    exact length_aset_mem _ _ _ hmem1
  · obtain ⟨d2, hd2, hcnt⟩ := @insertNode_reinsert_count (splitDot x) t.root r1 x k1 x k2 hr1
    rw [hd2] at hr2
    injection hr2 with hr2
    rw [← hr2]
    exact hcnt

/-! ## Claim C9 -/

/-- C9 counterexample: `x.__type__` is a well-formed non-empty dotted name
(every segment non-empty), yet inserting it after `x` fails: the trie walk
steps onto the string stored under the `__type__` marker of `x`'s node and
Python raises `TypeError` (`isSome = false`, i.e. the result is `none`). -/
theorem c9_counterexample :
    (∀ s ∈ splitDot "x.__type__", s ≠ "") ∧
    ((emptyFRT.insert "x" "function").bind
      (fun u => u.insert "x.__type__" "method")).isSome = false := by
  exact ⟨by decide, by decide⟩

/-- C9 (amended): `insert(qn, kind)` never fails for a well-formed non-empty
qualified name none of whose segments is a metadata key
(`__type__`/`__qn__`), in any well-formed registry state: it records the kind
in the exact-lookup map, creates or reuses the trie node chain for the
segments of `qn`, and sets the terminal kind and full-name markers on the
final node. -/
theorem c9_insert_total (t : FunctionRegistryTrie) (qn k : String)
    (hwf : RegWf t) (hok : okQn qn) :
    ∃ t2, t.insert qn k = some t2 ∧ t2.entries = aset t.entries qn k ∧
      ∃ nd, walk (TVal.vdict t2.root) (splitDot qn) = WalkOut.atVal (TVal.vdict nd) ∧
        alookup nd "__type__" = some (TVal.vstr k) ∧
        alookup nd "__qn__" = some (TVal.vstr qn) := by
  obtain ⟨t2, h2, hwf2, hent, hroot⟩ := insert_total_of_wf k hwf hok
  obtain ⟨r, hr, htr⟩ := insert_eq_some h2
  obtain ⟨nd, hwk, hty, hqn⟩ := insertNode_markers hr
  refine ⟨t2, h2, hent, nd, ?_, hty, hqn⟩
  rw [htr]
  exact hwk

/-- Witness for C9 (amended) on the empty registry. -/
theorem c9_witness :
    RegWf emptyFRT ∧ okQn "a.b" ∧
    (∃ t2, emptyFRT.insert "a.b" "function" = some t2 ∧
      t2.entries = aset emptyFRT.entries "a.b" "function" ∧
      ∃ nd, walk (TVal.vdict t2.root) (splitDot "a.b") = WalkOut.atVal (TVal.vdict nd) ∧
        alookup nd "__type__" = some (TVal.vstr "function") ∧
        alookup nd "__qn__" = some (TVal.vstr "a.b")) :=
  ⟨regWf_empty, by decide, c9_insert_total emptyFRT "a.b" "function" regWf_empty (by decide)⟩

/-! ## Claim C4 -/

mutual
/-- All dictionary keys occurring anywhere in a trie value. -/
def keysVal : TVal → List String
  | TVal.vstr _ => []
  | TVal.vdict d => keysEntries d

/-- All dictionary keys occurring anywhere at or below an entry list. -/
def keysEntries : List (String × TVal) → List String
  | [] => []
  | (k, v) :: rest => k :: (keysVal v ++ keysEntries rest)
end

theorem key_mem_keysEntries {d : List (String × TVal)} {p : String} {v : TVal}
    (hm : (p, v) ∈ d) : p ∈ keysEntries d := by
  induction d with
  | nil => simp at hm
  | cons q rest ih =>
    obtain ⟨k0, v0⟩ := q
    rw [show keysEntries ((k0, v0) :: rest) = k0 :: (keysVal v0 ++ keysEntries rest) from by
      rw [keysEntries]]
    rcases List.mem_cons.mp hm with he | hm'
    · injection he with h1 h2
      subst h1
      exact List.mem_cons_self _ _
    · exact List.mem_cons_of_mem _ (List.mem_append_right _ (ih hm'))

theorem keysEntries_sub {d : List (String × TVal)} {p x : String} {c : List (String × TVal)}
    (hm : (p, TVal.vdict c) ∈ d) (hx : x ∈ keysEntries c) : x ∈ keysEntries d := by
  induction d with
  | nil => simp at hm
  | cons q rest ih =>
    obtain ⟨k0, v0⟩ := q
    rw [show keysEntries ((k0, v0) :: rest) = k0 :: (keysVal v0 ++ keysEntries rest) from by
      rw [keysEntries]]
    rcases List.mem_cons.mp hm with he | hm'
    · injection he with h1 h2
      subst h2
      refine List.mem_cons_of_mem _ (List.mem_append_left _ ?_)
      rw [show keysVal (TVal.vdict c) = keysEntries c from by rw [keysVal]]
      exact hx
    · exact List.mem_cons_of_mem _ (List.mem_append_right _ (ih hm'))

theorem walk_missing {parts : List String} :
    ∀ {P : List String} {d : List (String × TVal)} {x : String},
    Wf P d → (∀ y ∈ parts, y ≠ "__type__" ∧ y ≠ "__qn__") →
    x ∈ parts → x ∉ keysEntries d →
    walk (TVal.vdict d) parts = WalkOut.emptyRes := by
  induction parts with
  | nil => intro P d x _ _ hx _; simp at hx
  | cons p rest ih =>
    intro P d x hwf hsegs hx hnk
    cases hl : alookup d p with
    | none =>
      show (match alookup d p with
        | none => WalkOut.emptyRes
        | some v => walk v rest) = WalkOut.emptyRes
      rw [hl]
    | some v =>
      obtain ⟨c, rfl, hwfc⟩ := wf_lookup_child hwf (hsegs p (List.mem_cons_self _ _)).1
        (hsegs p (List.mem_cons_self _ _)).2 hl
      have hstep : walk (TVal.vdict d) (p :: rest) = walk (TVal.vdict c) rest := by
        simp [walk, hl]
      rw [hstep]
      rcases List.mem_cons.mp hx with he | hx'
      · subst he
        exact absurd (key_mem_keysEntries (mem_of_alookup hl)) hnk
      · refine ih hwfc (fun y hy => hsegs y (List.mem_cons_of_mem _ hy)) hx' ?_
        intro hc
        exact hnk (keysEntries_sub (mem_of_alookup hl) hc)

/-- C4 counterexample: in the registry holding exactly `a.b.c` and `a.bc.d`
(both of kind `function`), the segment `unc` of the prefix
`a.b.c.__type__.unc` is absent from the trie, yet
`find_with_prefix_and_suffix` raises `TypeError` (modelled `none`) instead of
returning the empty list: the navigation loop steps onto the `__type__`
marker string `"function"`, Python's `in` finds `"unc"` as a substring of it,
and the string is then indexed with a string. -/
theorem c4_counterexample :
    "unc" ∈ splitDot "a.b.c.__type__.unc" ∧
    "unc" ∉ keysEntries (((emptyFRT.insert "a.b.c" "function").bind
        (fun u => u.insert "a.bc.d" "function")).getD emptyFRT).root ∧
    (((emptyFRT.insert "a.b.c" "function").bind
        (fun u => u.insert "a.bc.d" "function")).getD emptyFRT).find_with_prefix_and_suffix
      "a.b.c.__type__.unc" "x" = none := by
  refine ⟨by decide, by decide, by decide⟩

/-- C4 (amended): prefix navigation is by whole dot-segments: for every
registry containing exactly the insertions of `a.b.c` and `a.bc.d` (either
order, any kinds), `find_with_prefix_and_suffix "a.b" "c"` returns exactly
`["a.b.c"]` and never `a.bc.d`; and for every well-formed registry and every
prefix, none of whose segments is a metadata key (`__type__`/`__qn__`), one
of whose segments is absent from the trie, the result is the empty list. -/
theorem c4_prefix_isolation :
    (∀ (k1 k2 : String) (t : FunctionRegistryTrie),
      ((emptyFRT.insert "a.b.c" k1).bind (fun u => u.insert "a.bc.d" k2) = some t ∨
       (emptyFRT.insert "a.bc.d" k2).bind (fun u => u.insert "a.b.c" k1) = some t) →
      t.find_with_prefix_and_suffix "a.b" "c" = some ["a.b.c"]) ∧
    (∀ (t : FunctionRegistryTrie) (pre suffix : String),
      RegWf t → (∀ y ∈ prefixPartsOf pre, y ≠ "__type__" ∧ y ≠ "__qn__") →
      (∃ x ∈ prefixPartsOf pre, x ∉ keysEntries t.root) →
      t.find_with_prefix_and_suffix pre suffix = some []) := by
  constructor
  · intro k1 k2 t h
    rcases h with h | h
    · have he : ((emptyFRT.insert "a.b.c" k1).bind (fun u => u.insert "a.bc.d" k2)).map
          FunctionRegistryTrie.root = some
          [("a", TVal.vdict [("b", TVal.vdict [("c", TVal.vdict
              [("__type__", TVal.vstr k1), ("__qn__", TVal.vstr "a.b.c")])]),
            ("bc", TVal.vdict [("d", TVal.vdict
              [("__type__", TVal.vstr k2), ("__qn__", TVal.vstr "a.bc.d")])])])] := rfl
      rw [h] at he
      have he2 : some t.root = some
          [("a", TVal.vdict [("b", TVal.vdict [("c", TVal.vdict
              [("__type__", TVal.vstr k1), ("__qn__", TVal.vstr "a.b.c")])]),
            ("bc", TVal.vdict [("d", TVal.vdict
              [("__type__", TVal.vstr k2), ("__qn__", TVal.vstr "a.bc.d")])])])] := he
      injection he2 with he2
      unfold FunctionRegistryTrie.find_with_prefix_and_suffix
      rw [he2]
      simp [prefixPartsOf, splitDot, splitChars, walk, alookup, dfsV, dfsL,
        strStartsWith, strEndsWith, chPre]
    · have he : ((emptyFRT.insert "a.bc.d" k2).bind (fun u => u.insert "a.b.c" k1)).map
          FunctionRegistryTrie.root = some
          [("a", TVal.vdict [("bc", TVal.vdict [("d", TVal.vdict
              [("__type__", TVal.vstr k2), ("__qn__", TVal.vstr "a.bc.d")])]),
            ("b", TVal.vdict [("c", TVal.vdict
              [("__type__", TVal.vstr k1), ("__qn__", TVal.vstr "a.b.c")])])])] := rfl
      rw [h] at he
      have he2 : some t.root = some
          [("a", TVal.vdict [("bc", TVal.vdict [("d", TVal.vdict
              [("__type__", TVal.vstr k2), ("__qn__", TVal.vstr "a.bc.d")])]),
            ("b", TVal.vdict [("c", TVal.vdict
              [("__type__", TVal.vstr k1), ("__qn__", TVal.vstr "a.b.c")])])])] := he
      injection he2 with he2
      unfold FunctionRegistryTrie.find_with_prefix_and_suffix
      rw [he2]
      simp [prefixPartsOf, splitDot, splitChars, walk, alookup, dfsV, dfsL,
        strStartsWith, strEndsWith, chPre]
  · rintro t pre suffix hwf hsegs ⟨x, hxmem, hxnk⟩
    unfold FunctionRegistryTrie.find_with_prefix_and_suffix
    rw [walk_missing hwf hsegs hxmem hxnk]

/-- Witness for C4 (amended): both clauses at concrete inputs. -/
theorem c4_witness :
    (((emptyFRT.insert "a.b.c" "function").bind (fun u => u.insert "a.bc.d" "method") =
        some (((emptyFRT.insert "a.b.c" "function").bind
          (fun u => u.insert "a.bc.d" "method")).getD emptyFRT)) ∧
      (((emptyFRT.insert "a.b.c" "function").bind
          (fun u => u.insert "a.bc.d" "method")).getD
            emptyFRT).find_with_prefix_and_suffix "a.b" "c" = some ["a.b.c"]) ∧
    (RegWf emptyFRT ∧
      emptyFRT.find_with_prefix_and_suffix "zz.c" "x" = some []) := by
  refine ⟨⟨rfl, c4_prefix_isolation.1 "function" "method" _ (Or.inl rfl)⟩,
    regWf_empty, c4_prefix_isolation.2 emptyFRT "zz.c" "x" regWf_empty (by decide) ?_⟩
  exact ⟨"zz", by decide, by decide⟩

/-! ## Claims C2 and C10: shared setup -/

theorem delItem_root (t : FunctionRegistryTrie) (qn : String) :
    (t.delItem qn).root = t.root := by
  unfold FunctionRegistryTrie.delItem
  split <;> rfl

theorem delItem_entries_of_mem {t : FunctionRegistryTrie} {qn : String}
    (h : (alookup t.entries qn).isSome = true) :
    (t.delItem qn).entries = t.entries.filter (fun p => decide (p.1 ≠ qn)) := by
  unfold FunctionRegistryTrie.delItem
  rw [if_pos h]

theorem prefixPartsOf_of_ne {p : String} (hp : p ≠ "") : prefixPartsOf p = splitDot p := by
  unfold prefixPartsOf
  rw [if_neg hp]

/-- After inserting `q = p ++ "." ++ rest` into a well-formed registry, the
navigation loop for prefix `p` reaches a well-formed node from which the
segments of `rest` chain down to `q`'s terminal markers. -/
theorem insert_walk_mid {t t2 : FunctionRegistryTrie} {q p rest k : String}
    (hwf : RegWf t) (hq : q = p ++ "." ++ rest) (hp : p ≠ "") (hok : okQn q)
    (hins : t.insert q k = some t2) :
    ∃ mid, walk (TVal.vdict t2.root) (prefixPartsOf p) = WalkOut.atVal (TVal.vdict mid) ∧
      Wf (splitDot p) mid ∧ Chain mid (splitDot rest) q := by
  obtain ⟨r, hr, htr⟩ := insert_eq_some hins
  have hroot : t2.root = r := by rw [htr]
  have hsplit : splitDot q = splitDot p ++ splitDot rest := by
    rw [hq, splitDot_append_dot]
  have hchain0 : Chain r (splitDot q) q := insertNode_chain hr
  rw [hsplit] at hchain0
  obtain ⟨mid, hwmid, hchain⟩ := chain_walk hchain0
  have hwf2 : Wf [] r := by
    have := insert_wf_of_eq hwf hok hins
    unfold RegWf at this
    rwa [hroot] at this
  have hpsegs : ∀ x ∈ splitDot p, x ≠ "__type__" ∧ x ≠ "__qn__" := by
    intro x hx
    have hxq : x ∈ splitDot q := by
      rw [hsplit]
      exact List.mem_append_left _ hx
    exact hok x hxq
  have hwfmid : Wf (splitDot p) mid := by
    have := walk_wf hwf2 hpsegs hwmid
    rwa [List.nil_append] at this
  refine ⟨mid, ?_, hwfmid, hchain⟩
  rw [prefixPartsOf_of_ne hp, hroot]
  exact hwmid

/-! ## Claim C2 -/

/-- C2 counterexample: `a.__x` is inserted (kind `function`) and then removed
via `__delitem__`; `"a"` is a dot-boundary prefix of it and `"__x"` is its
last segment, yet `find_with_prefix_and_suffix "a" "__x"` returns `[]` — it
does not return the stale qualified name, because the dfs skips the `__x`
child whose key starts with `"__"`. -/
theorem c2_counterexample :
    (emptyFRT.insert "a.__x" "function").isSome = true ∧
    (((emptyFRT.insert "a.__x" "function").getD emptyFRT).delItem
      "a.__x").find_with_prefix_and_suffix "a" "__x" = some [] := ⟨by decide, by decide⟩

/-- C2 (amended): stale trie markers are not filtered: let
`q = p ++ "." ++ rest` with `p` non-empty, no segment of `q` a metadata key
and no segment of `rest` beginning with `"__"`, and let `s` be `q`'s last
segment.  After inserting `q` into a well-formed registry and then removing
it (`__delitem__`, as during file removal), `find_with_prefix_and_suffix p s`
still returns a list containing `q`, while `find_ending_with s` does not
return `q`. -/
theorem c2_stale_trie_markers (t t2 : FunctionRegistryTrie) (q p rest s k : String)
    (hwf : RegWf t) (hq : q = p ++ "." ++ rest) (hp : p ≠ "")
    (hok : okQn q)
    (hns : ∀ x ∈ splitDot rest, strStartsWith x "__" = false)
    (hlast : (splitDot rest).getLast? = some s)
    (hins : t.insert q k = some t2) :
    (∃ l, (t2.delItem q).find_with_prefix_and_suffix p s = some l ∧ q ∈ l) ∧
    q ∉ (t2.delItem q).find_ending_with s := by
  obtain ⟨mid, hwmid, hwfmid, hchain⟩ := insert_walk_mid hwf hq hp hok hins
  have hend : strEndsWith q ("." ++ s) = true := strEndsWith_join_last hq hlast
  have hcol : Collects s mid q := chain_collects hchain hns hend
  obtain ⟨l, hl⟩ := dfs_total (sizeOf mid) (splitDot p) mid s le_rfl hwfmid
  have hql : q ∈ l := dfs_complete (sizeOf mid) mid s q l le_rfl hcol hl
  constructor
  · refine ⟨l, ?_, hql⟩
    unfold FunctionRegistryTrie.find_with_prefix_and_suffix
    rw [delItem_root, hwmid]
    exact hl
  · obtain ⟨r, hr, htr⟩ := insert_eq_some hins
    have hmem : (alookup t2.entries q).isSome = true := by
      rw [htr]
      show (alookup (aset t.entries q k) q).isSome = true
      rw [alookup_aset_self]
      rfl
    rw [show (t2.delItem q).find_ending_with s =
        ((t2.entries.filter (fun p => decide (p.1 ≠ q))).map Prod.fst).filter
          (fun qn => strEndsWith qn ("." ++ s)) from by
      unfold FunctionRegistryTrie.find_ending_with
      rw [delItem_entries_of_mem hmem]]
    intro hqin
    rw [List.mem_filter] at hqin
    obtain ⟨pr, hpr, hfst⟩ := List.mem_map.mp hqin.1
    rw [List.mem_filter] at hpr
    rw [hfst] at hpr
    simp at hpr

/-- Witness for C2 (amended) on the empty registry with q = `a.b.c`,
p = `a`, rest = `b.c`, s = `c`. -/
theorem c2_witness :
    (RegWf emptyFRT ∧ ("a.b.c" : String) = "a" ++ "." ++ "b.c" ∧ ("a" : String) ≠ "" ∧
      okQn "a.b.c" ∧ (∀ x ∈ splitDot "b.c", strStartsWith x "__" = false) ∧
      (splitDot "b.c").getLast? = some "c" ∧
      emptyFRT.insert "a.b.c" "function" =
        some ((emptyFRT.insert "a.b.c" "function").getD emptyFRT)) ∧
    ((∃ l, (((emptyFRT.insert "a.b.c" "function").getD
        emptyFRT).delItem "a.b.c").find_with_prefix_and_suffix "a" "c" = some l ∧
        "a.b.c" ∈ l) ∧
      "a.b.c" ∉ (((emptyFRT.insert "a.b.c" "function").getD
        emptyFRT).delItem "a.b.c").find_ending_with "c") :=
  ⟨⟨regWf_empty, by decide, by decide, by decide, by decide, by decide, rfl⟩,
    c2_stale_trie_markers emptyFRT _ "a.b.c" "a" "b.c" "c" "function"
      regWf_empty (by decide) (by decide) (by decide) (by decide) (by decide) rfl⟩

/-! ## Claim C10 -/

/-- C10 counterexample: `a.__qn__.b` is successfully registered (its middle
segment creates a child dict under the `__qn__` key of `a`'s node) and is
reachable via `contains`, but `find_with_prefix_and_suffix "a" "b"` — `"a"`
being a strict dot-boundary prefix ending above the `__`-segment — raises
`AttributeError` (modelled `none`) instead of returning a result list that
omits the name. -/
theorem c10_counterexample :
    (emptyFRT.insert "a.__qn__.b" "function").isSome = true ∧
    ((emptyFRT.insert "a.__qn__.b" "function").getD emptyFRT).containsQn "a.__qn__.b" = true ∧
    ((emptyFRT.insert "a.__qn__.b" "function").getD emptyFRT).find_with_prefix_and_suffix
      "a" "b" = none :=
  ⟨by decide, by decide, by decide⟩

/-- The qualified name collected by the dfs from a well-formed node is the
join of the node's path and a chain of non-metadata, dot-free keys. -/
theorem collects_qn_shape {suffix : String} {d : List (String × TVal)} {q : String}
    (hcol : Collects suffix d q) :
    ∀ {P : List String}, Wf P d →
    ∃ ks, (∀ x ∈ ks, strStartsWith x "__" = false ∧ dotFreeStr x) ∧
      q = joinDot (P ++ ks) := by
  induction hcol with
  | here d q hqn hend =>
    intro P hwf
    have hv := wf_lookup_qn hwf hqn
    injection hv with hv
    exact ⟨[], by simp, by rw [List.append_nil]; exact hv⟩
  | there d k c q hm hns hcolc ih =>
    intro P hwf
    obtain ⟨h1, h2, hdf, c', he, hwfc⟩ := wf_lookup_nonuscore hwf hns hm
    injection he with he
    subst he
    obtain ⟨ks, hks, hqeq⟩ := ih hwfc
    refine ⟨k :: ks, ?_, ?_⟩
    · intro x hx
      rcases List.mem_cons.mp hx with hx | hx
      · subst hx
        exact ⟨hns, hdf⟩
      · exact hks x hx
    · rw [hqeq]
      rw [show P ++ k :: ks = (P ++ [k]) ++ ks from by rw [List.append_assoc]; rfl]

/-- C10 (amended): for every qualified name `q = p ++ "." ++ rest` (`p`
non-empty, no segment of `q` equal to a metadata key) registered into a
well-formed registry, if some segment of `rest` begins with two underscores,
then `find_with_prefix_and_suffix p s` omits `q` from its results for every
suffix `s` (the dfs skips every trie key starting with `"__"`), even though
`q` remains reachable via `get`, `contains`, `keys`, and
`find_ending_with`. -/
theorem c10_uscore_segments_skipped (t t2 : FunctionRegistryTrie) (q p rest s0 k : String)
    (hwf : RegWf t) (hq : q = p ++ "." ++ rest) (hp : p ≠ "")
    (hok : okQn q)
    (hus : ∃ x ∈ splitDot rest, strStartsWith x "__" = true)
    (hlast : (splitDot rest).getLast? = some s0)
    (hins : t.insert q k = some t2) :
    t2.get q = some k ∧ t2.containsQn q = true ∧ q ∈ t2.keys ∧
    q ∈ t2.find_ending_with s0 ∧
    (∀ s, ∃ l, t2.find_with_prefix_and_suffix p s = some l ∧ q ∉ l) := by
  obtain ⟨r, hr, htr⟩ := insert_eq_some hins
  have hent : t2.entries = aset t.entries q k := by rw [htr]
  have hget : t2.get q = some k := by
    unfold FunctionRegistryTrie.get
    rw [hent]
    exact alookup_aset_self _ _ _
  have hkeys : q ∈ t2.keys := by
    unfold FunctionRegistryTrie.keys
    rw [hent]
    by_contra hx
    have hx2 : alookup (aset t.entries q k) q = none := (alookup_eq_none _ _).mpr hx
    rw [alookup_aset_self] at hx2
    cases hx2
  have hend : strEndsWith q ("." ++ s0) = true := strEndsWith_join_last hq hlast
  refine ⟨hget, ?_, hkeys, ?_, ?_⟩
  · unfold FunctionRegistryTrie.containsQn
    rw [hent, alookup_aset_self]
    rfl
  · unfold FunctionRegistryTrie.find_ending_with
    rw [List.mem_filter]
    exact ⟨hkeys, hend⟩
  · intro s
    obtain ⟨mid, hwmid, hwfmid, hchain⟩ := insert_walk_mid hwf hq hp hok hins
    obtain ⟨l, hl⟩ := dfs_total (sizeOf mid) (splitDot p) mid s le_rfl hwfmid
    refine ⟨l, ?_, ?_⟩
    · unfold FunctionRegistryTrie.find_with_prefix_and_suffix
      rw [hwmid]
      exact hl
    · intro hql
      have hcol : Collects s mid q := dfs_sound (sizeOf mid) mid s q l le_rfl hl hql
      obtain ⟨ks, hks, hqeq⟩ := collects_qn_shape hcol hwfmid
      have hq2 : q = joinDot (splitDot p ++ splitDot rest) := by
        rw [show splitDot p ++ splitDot rest = splitDot q from (splitDot_append_dot p rest ▸
          congrArg splitDot hq).symm]
        rw [joinDot_splitDot]
      have hinj : splitDot p ++ ks = splitDot p ++ splitDot rest := by
        apply joinDot_inj ?_ ?_ ?_ ?_ (hqeq ▸ hq2)
        · intro hnil
          exact splitDot_ne_nil p (List.append_eq_nil.mp hnil).1
        · intro hnil
          exact splitDot_ne_nil p (List.append_eq_nil.mp hnil).1
        · intro g hg
          rcases List.mem_append.mp hg with hg | hg
          · exact splitDot_dotFree p g hg
          · exact (hks g hg).2
        · intro g hg
          rcases List.mem_append.mp hg with hg | hg
          · exact splitDot_dotFree p g hg
          · exact splitDot_dotFree rest g hg
      have hks2 : ks = splitDot rest := List.append_cancel_left hinj
      obtain ⟨x, hxmem, hxus⟩ := hus
      have := (hks x (hks2 ▸ hxmem)).1
      rw [this] at hxus
      cases hxus

/-! ## Claims C1 and C8: removal lemmas -/

/-- The simple-name cleanup loop of `remove_file_from_state` (lines 218–224):
every set that shrinks is replaced by its difference with the removal set. -/
def shrinkSets (R : Finset String) : List (String × Finset String) →
    List (String × Finset String) :=
  List.map (fun p =>
    let newSet := p.2 \ R
    if newSet.card < p.2.card then (p.1, newSet) else p)

theorem remove_project_name (g : GraphUpdater) (F : List String) :
    (g.remove_file_from_state F).project_name = g.project_name := rfl

theorem remove_root (g : GraphUpdater) (F : List String) :
    (g.remove_file_from_state F).function_registry.root = g.function_registry.root := rfl

theorem remove_entries (g : GraphUpdater) (F : List String) :
    (g.remove_file_from_state F).function_registry.entries =
      g.function_registry.entries.filter
        (fun p => !(belongsTo (fileModuleQn g.project_name F) p.1)) := rfl

theorem remove_simple (g : GraphUpdater) (F : List String) :
    (g.remove_file_from_state F).simple_name_lookup =
      shrinkSets (((g.function_registry.keys).filter
          (fun qn => belongsTo (fileModuleQn g.project_name F) qn)).toFinset)
        g.simple_name_lookup := rfl

theorem remove_cache (g : GraphUpdater) (F : List String) :
    (g.remove_file_from_state F).ast_cache =
      (if (alookup g.ast_cache F).isSome then
        g.ast_cache.filter (fun p => decide (p.1 ≠ F))
      else g.ast_cache) := rfl

theorem alookup_filter_not_belongs (E : List (String × String)) (m q : String) :
    alookup (E.filter (fun p => !(belongsTo m p.1))) q =
      if !(belongsTo m q) then alookup E q else none :=
  alookup_filter_key E (fun kk => !(belongsTo m kk)) q

theorem alookup_filter_ne {κ α : Type} [DecidableEq κ] (E : List (κ × α)) (x q : κ) :
    alookup (E.filter (fun p => decide (p.1 ≠ x))) q =
      if decide (q ≠ x) then alookup E q else none :=
  alookup_filter_key E (fun kk => decide (kk ≠ x)) q

theorem shrink_apply (R : Finset String) (p : String × Finset String) :
    ((fun p : String × Finset String =>
      let newSet := p.2 \ R
      if newSet.card < p.2.card then (p.1, newSet) else p) p) = (p.1, p.2 \ R) := by
  by_cases h : (p.2 \ R).card < p.2.card
  · simp only [h, if_pos]
  · have hsub : p.2 \ R ⊆ p.2 := Finset.sdiff_subset
    have heq : p.2 \ R = p.2 := Finset.eq_of_subset_of_card_le hsub (le_of_not_lt h)
    show (if (p.2 \ R).card < p.2.card then (p.1, p.2 \ R) else p) = (p.1, p.2 \ R)
    rw [if_neg h, heq]

theorem mem_shrinkSets {R : Finset String} {l : List (String × Finset String)}
    {p : String × Finset String} (hm : p ∈ shrinkSets R l) :
    ∃ p0 ∈ l, p = (p0.1, p0.2 \ R) := by
  unfold shrinkSets at hm
  obtain ⟨p0, hp0, hmap⟩ := List.mem_map.mp hm
  refine ⟨p0, hp0, ?_⟩
  rw [← hmap]
  exact shrink_apply R p0

theorem lookupSet_shrinkSets (R : Finset String) (l : List (String × Finset String))
    (n : String) : lookupSet (shrinkSets R l) n = lookupSet l n \ R := by
  induction l with
  | nil =>
    show lookupSet [] n = lookupSet [] n \ R
    simp [lookupSet, alookup]
  | cons p rest ih =>
    obtain ⟨nm, ss⟩ := p
    show lookupSet ((fun p : String × Finset String =>
        let newSet := p.2 \ R
        if newSet.card < p.2.card then (p.1, newSet) else p) (nm, ss) :: shrinkSets R rest) n =
      lookupSet ((nm, ss) :: rest) n \ R
    rw [shrink_apply R (nm, ss)]
    unfold lookupSet
    by_cases hn : nm = n
    · subst hn
      rw [show alookup (((nm : String), ss \ R) :: shrinkSets R rest) nm =
          some (ss \ R) from by simp [alookup]]
      rw [show alookup (((nm : String), ss) :: rest) nm = some ss from by simp [alookup]]
    · rw [show alookup (((nm : String), ss \ R) :: shrinkSets R rest) n =
          alookup (shrinkSets R rest) n from by simp [alookup, hn]]
      rw [show alookup (((nm : String), ss) :: rest) n = alookup rest n from by
        simp [alookup, hn]]
      unfold lookupSet at ih
      exact ih

theorem shrinkSets_empty (l : List (String × Finset String)) : shrinkSets ∅ l = l := by
  induction l with
  | nil => rfl
  | cons p rest ih =>
    show ((fun p : String × Finset String =>
        let newSet := p.2 \ ∅
        if newSet.card < p.2.card then (p.1, newSet) else p) p) :: shrinkSets ∅ rest =
      p :: rest
    rw [shrink_apply, ih, Finset.sdiff_empty]

/-! ## Claim C1 -/

/-- C1: after `remove_file_from_state(F)` on a state whose simple-name sets
only hold live qualified names, no qualified name owned by `F` (equal to the
module-qualified-name or extending it past a dot) is reachable via `get`,
`__contains__`, `keys`, `items`, or any simple-name set; `F`'s entry is gone
from the parsed-tree cache; and every other qualified name — including ones
sharing only a non-dot-boundary lexicographic prefix such as `a.bc.d` versus
`a.b` — keeps its original kind and simple-name memberships. -/
theorem c1_remove_file_complete (g : GraphUpdater) (F : List String)
    (hcoh : ∀ p ∈ g.simple_name_lookup, ∀ q ∈ p.2,
      (alookup g.function_registry.entries q).isSome = true) :
    (∀ q, belongsTo (fileModuleQn g.project_name F) q = true →
      (g.remove_file_from_state F).function_registry.get q = none ∧
      (g.remove_file_from_state F).function_registry.containsQn q = false ∧
      q ∉ (g.remove_file_from_state F).function_registry.keys ∧
      (∀ k, (q, k) ∉ (g.remove_file_from_state F).function_registry.items) ∧
      (∀ p ∈ (g.remove_file_from_state F).simple_name_lookup, q ∉ p.2)) ∧
    alookup (g.remove_file_from_state F).ast_cache F = none ∧
    (∀ q, belongsTo (fileModuleQn g.project_name F) q = false →
      (g.remove_file_from_state F).function_registry.get q = g.function_registry.get q ∧
      (q ∈ (g.remove_file_from_state F).function_registry.keys ↔
        q ∈ g.function_registry.keys) ∧
      (∀ n, q ∈ lookupSet (g.remove_file_from_state F).simple_name_lookup n ↔
        q ∈ lookupSet g.simple_name_lookup n)) := by
  refine ⟨?_, ?_, ?_⟩
  · intro q hb
    have hget : (g.remove_file_from_state F).function_registry.get q = none := by
      show alookup (g.remove_file_from_state F).function_registry.entries q = none
      rw [remove_entries, alookup_filter_not_belongs, hb]
      rfl
    refine ⟨hget, ?_, ?_, ?_, ?_⟩
    · show (alookup (g.remove_file_from_state F).function_registry.entries q).isSome = false
      rw [show alookup (g.remove_file_from_state F).function_registry.entries q = none
        from hget]
      rfl
    · intro hin
      rw [show (g.remove_file_from_state F).function_registry.keys =
          ((g.function_registry.entries.filter
            (fun p => !(belongsTo (fileModuleQn g.project_name F) p.1))).map Prod.fst) from by
        unfold FunctionRegistryTrie.keys
        rw [remove_entries]] at hin
      obtain ⟨pr, hpr, hfst⟩ := List.mem_map.mp hin
      rw [List.mem_filter] at hpr
      rw [hfst] at hpr
      rw [hb] at hpr
      cases hpr.2
    · intro k hin
      rw [show (g.remove_file_from_state F).function_registry.items =
          g.function_registry.entries.filter
            (fun p => !(belongsTo (fileModuleQn g.project_name F) p.1)) from
        remove_entries g F] at hin
      rw [List.mem_filter] at hin
      rw [show ((q, k) : String × String).1 = q from rfl, hb] at hin
      cases hin.2
    · intro p hp hqin
      rw [remove_simple] at hp
      obtain ⟨p0, hp0, rfl⟩ := mem_shrinkSets hp
      rw [Finset.mem_sdiff] at hqin
      obtain ⟨hq0, hqR⟩ := hqin
      apply hqR
      rw [List.mem_toFinset, List.mem_filter]
      refine ⟨?_, hb⟩
      have := hcoh p0 hp0 q hq0
      by_contra hnk
      rw [(alookup_eq_none _ _).mpr ?_] at this
      · cases this
      · show q ∉ (g.function_registry.entries).map Prod.fst
        exact hnk
  · rw [remove_cache]
    cases hc : alookup g.ast_cache F with
    | none => simpa using hc
    | some v =>
      show alookup (if (some v).isSome = true then
        g.ast_cache.filter (fun p => decide (p.1 ≠ F)) else g.ast_cache) F = none
      rw [if_pos (by rfl), alookup_filter_ne]
      simp
  · intro q hb
    refine ⟨?_, ?_, ?_⟩
    · show alookup (g.remove_file_from_state F).function_registry.entries q =
        alookup g.function_registry.entries q
      rw [remove_entries, alookup_filter_not_belongs, hb]
      rfl
    · rw [show (g.remove_file_from_state F).function_registry.keys =
          ((g.function_registry.entries.filter
            (fun p => !(belongsTo (fileModuleQn g.project_name F) p.1))).map Prod.fst) from by
        unfold FunctionRegistryTrie.keys
        rw [remove_entries]]
      unfold FunctionRegistryTrie.keys
      constructor
      · intro hin
        obtain ⟨pr, hpr, hfst⟩ := List.mem_map.mp hin
        rw [List.mem_filter] at hpr
        exact hfst ▸ List.mem_map.mpr ⟨pr, hpr.1, rfl⟩
      · intro hin
        obtain ⟨pr, hpr, hfst⟩ := List.mem_map.mp hin
        refine List.mem_map.mpr ⟨pr, List.mem_filter.mpr ⟨hpr, ?_⟩, hfst⟩
        rw [hfst, hb]
        rfl
    · intro n
      rw [remove_simple, lookupSet_shrinkSets, Finset.mem_sdiff]
      constructor
      · intro h
        exact h.1
      · intro h
        refine ⟨h, ?_⟩
        intro hR
        rw [List.mem_toFinset, List.mem_filter] at hR
        rw [hb] at hR
        cases hR.2

/-! ## Claim C8 -/

/-- C8: `remove_file_from_state` is idempotent, and a no-op on files that own
no registered qualified names and have no cache entry: removing twice equals
removing once, and removing an unknown file leaves the registry, the
simple-name index and the parsed-tree cache unchanged (the computed removal
set is empty; no error — the operation is total). -/
theorem c8_remove_idempotent_noop (g : GraphUpdater) (F : List String) :
    (g.remove_file_from_state F).remove_file_from_state F = g.remove_file_from_state F ∧
    ((∀ q ∈ g.function_registry.keys,
        belongsTo (fileModuleQn g.project_name F) q = false) →
      alookup g.ast_cache F = none →
      g.remove_file_from_state F = g) := by
  constructor
  · apply guExt
    · rfl
    · apply frtExt
      · rfl
      · rw [remove_entries, remove_entries, remove_project_name]
        apply List.filter_eq_self.mpr
        intro a ha
        exact (List.mem_filter.mp ha).2
    · rw [remove_simple (g.remove_file_from_state F) F, remove_project_name]
      have hkeys : ((g.remove_file_from_state F).function_registry.keys).filter
          (fun qn => belongsTo (fileModuleQn g.project_name F) qn) = [] := by
        apply List.filter_eq_nil_iff.mpr
        intro a ha
        rw [show (g.remove_file_from_state F).function_registry.keys =
            (g.function_registry.entries.filter
              (fun p => !(belongsTo (fileModuleQn g.project_name F) p.1))).map Prod.fst from by
          unfold FunctionRegistryTrie.keys
          rw [remove_entries]] at ha
        obtain ⟨pr, hpr, hfst⟩ := List.mem_map.mp ha
        rw [List.mem_filter] at hpr
        intro hbel
        rw [hfst, hbel] at hpr
        cases hpr.2
      rw [hkeys]
      rw [show ([] : List String).toFinset = ∅ from rfl]
      exact shrinkSets_empty _
    · rw [remove_cache (g.remove_file_from_state F) F]
      have hnone : alookup (g.remove_file_from_state F).ast_cache F = none := by
        rw [remove_cache]
        cases hc : alookup g.ast_cache F with
        | none => simpa using hc
        | some v =>
          show alookup (if (some v).isSome = true then
            g.ast_cache.filter (fun p => decide (p.1 ≠ F)) else g.ast_cache) F = none
          rw [if_pos (by rfl), alookup_filter_ne]
          simp
      rw [hnone]
      simp
  · intro hq hcache
    apply guExt
    · rfl
    · apply frtExt
      · rfl
      · rw [remove_entries]
        apply List.filter_eq_self.mpr
        intro a ha
        have hb : belongsTo (fileModuleQn g.project_name F) a.1 = false :=
          hq a.1 (List.mem_map.mpr ⟨a, ha, rfl⟩)
        rw [hb]
        rfl
    · rw [remove_simple]
      have hkeys : ((g.function_registry.keys).filter
          (fun qn => belongsTo (fileModuleQn g.project_name F) qn)) = [] := by
        apply List.filter_eq_nil_iff.mpr
        intro a ha hbel
        rw [hq a ha] at hbel
        cases hbel
      rw [hkeys]
      rw [show ([] : List String).toFinset = ∅ from rfl]
      exact shrinkSets_empty _
    · rw [remove_cache]
      rw [show (alookup g.ast_cache F) = none from hcache]
      simp

/-! ## Claim C3 -/

/-- C3: in `GraphUpdater.run`, every definition registration of pass 2
completes before any call resolution of pass 3 begins: the registry handed to
call resolution is the fold of all files' registrations, so a call site in
one file to a definition in a file visited later in traversal order still
resolves, and the resolution of each call is the same for any permutation of
the per-file processing order of pass 2. -/
theorem c3_pass2_before_pass3 (files files2 : List FileEntry) (hperm : files.Perm files2)
    (hok : ∀ f ∈ files, ∀ p ∈ f.defs, okQn p.1)
    (hnd : ((files.flatMap (fun f => f.defs)).map Prod.fst).Nodup)
    (fa fb : FileEntry) (qn k : String)
    (hfa : fa ∈ files) (hdef : (qn, k) ∈ fa.defs) (hfb : fb ∈ files) (hcall : qn ∈ fb.calls) :
    ∃ reg reg2, processFiles emptyFRT files = some reg ∧
      processFiles emptyFRT files2 = some reg2 ∧
      reg.get qn = some k ∧ reg2.get qn = some k ∧
      runPipeline files = some (resolveCalls reg files) ∧
      runPipeline files2 = some (resolveCalls reg2 files2) := by
  have hpf : (files.flatMap (fun f => f.defs)).Perm (files2.flatMap (fun f => f.defs)) :=
    List.Perm.flatMap_right _ hperm
  have hok2 : ∀ f ∈ files2, ∀ p ∈ f.defs, okQn p.1 := fun f hf =>
    hok f (hperm.mem_iff.mpr hf)
  have hnd2 : ((files2.flatMap (fun f => f.defs)).map Prod.fst).Nodup :=
    ((hpf.map Prod.fst).nodup_iff).mp hnd
  obtain ⟨reg, hreg, hwfr, hent⟩ := processFiles_total regWf_empty hok
  obtain ⟨reg2, hreg2, hwfr2, hent2⟩ := processFiles_total regWf_empty hok2
  have hmem : (qn, k) ∈ files.flatMap (fun f => f.defs) :=
    List.mem_flatMap.mpr ⟨fa, hfa, hdef⟩
  have hget : reg.get qn = some k := by
    show alookup reg.entries qn = some k
    rw [hent, alookup_foldl_aset, lastVal_eq_of_mem hnd hmem]
  have hget2 : reg2.get qn = some k := by
    show alookup reg2.entries qn = some k
    rw [hent2, alookup_foldl_aset, lastVal_eq_of_mem hnd2 (hpf.mem_iff.mp hmem)]
  refine ⟨reg, reg2, hreg, hreg2, hget, hget2, ?_, ?_⟩
  · unfold runPipeline
    rw [hreg]
  · unfold runPipeline
    rw [hreg2]

/-! ## Remaining witnesses -/

/-- Witness for C6 on the empty registry, re-inserting `a.b`. -/
theorem c6_witness :
    ((emptyFRT.entries.map Prod.fst).Nodup ∧
      emptyFRT.insert "a.b" "function" =
        some ((emptyFRT.insert "a.b" "function").getD emptyFRT) ∧
      ((emptyFRT.insert "a.b" "function").getD emptyFRT).insert "a.b" "method" =
        some ((((emptyFRT.insert "a.b" "function").getD emptyFRT).insert "a.b"
          "method").getD emptyFRT)) ∧
    (((((emptyFRT.insert "a.b" "function").getD emptyFRT).insert "a.b" "method").getD
        emptyFRT).get "a.b" = some "method" ∧
      (((((emptyFRT.insert "a.b" "function").getD emptyFRT).insert "a.b" "method").getD
        emptyFRT).keys).count "a.b" = 1 ∧
      ((((emptyFRT.insert "a.b" "function").getD emptyFRT).insert "a.b" "method").getD
        emptyFRT).length = ((emptyFRT.insert "a.b" "function").getD emptyFRT).length ∧
      countEntries ((((emptyFRT.insert "a.b" "function").getD emptyFRT).insert "a.b"
        "method").getD emptyFRT).root =
        countEntries ((emptyFRT.insert "a.b" "function").getD emptyFRT).root) :=
  ⟨⟨by decide, rfl, rfl⟩,
    c6_insert_overwrites emptyFRT _ _ "a.b" "function" "method" (by decide) rfl rfl⟩

/-- Witness for C10 (amended): `a.__init__` stays reachable through the exact
map while the dfs omits it below prefix `a`. -/
theorem c10_witness :
    (RegWf emptyFRT ∧ ("a.__init__" : String) = "a" ++ "." ++ "__init__" ∧
      ("a" : String) ≠ "" ∧ okQn "a.__init__" ∧
      (∃ x ∈ splitDot "__init__", strStartsWith x "__" = true) ∧
      (splitDot "__init__").getLast? = some "__init__" ∧
      emptyFRT.insert "a.__init__" "method" =
        some ((emptyFRT.insert "a.__init__" "method").getD emptyFRT)) ∧
    (((emptyFRT.insert "a.__init__" "method").getD emptyFRT).get "a.__init__" =
        some "method" ∧
      ((emptyFRT.insert "a.__init__" "method").getD emptyFRT).containsQn "a.__init__" =
        true ∧
      "a.__init__" ∈ ((emptyFRT.insert "a.__init__" "method").getD emptyFRT).keys ∧
      "a.__init__" ∈ ((emptyFRT.insert "a.__init__" "method").getD
        emptyFRT).find_ending_with "__init__" ∧
      (∀ s, ∃ l, ((emptyFRT.insert "a.__init__" "method").getD
        emptyFRT).find_with_prefix_and_suffix "a" s = some l ∧ "a.__init__" ∉ l)) :=
  ⟨⟨regWf_empty, by decide, by decide, by decide, ⟨"__init__", by decide, by decide⟩,
      by decide, rfl⟩,
    c10_uscore_segments_skipped emptyFRT _ "a.__init__" "a" "__init__" "__init__" "method"
      regWf_empty (by decide) (by decide) (by decide)
      ⟨"__init__", by decide, by decide⟩ (by decide) rfl⟩

/-- A two-file state for the C1 witness: `b.py` owns `proj.b.f`; another file
owns `proj.bc.d`, whose qualified name shares only a non-dot-boundary
lexicographic prefix with module `proj.b`. -/
def twoFileState : GraphUpdater :=
  ⟨"proj",
    ((emptyFRT.insert "proj.b.f" "function").bind
      (fun u => u.insert "proj.bc.d" "function")).getD emptyFRT,
    [("f", {"proj.b.f"}), ("d", {"proj.bc.d"})],
    [(["b.py"], (0, "python"))]⟩

/-- Witness for C1: removing `b.py` from `twoFileState` purges `proj.b.f`
everywhere but keeps `proj.bc.d` with its kind, and drops the cache entry. -/
theorem c1_witness :
    (∀ p ∈ twoFileState.simple_name_lookup, ∀ q ∈ p.2,
      (alookup twoFileState.function_registry.entries q).isSome = true) ∧
    belongsTo (fileModuleQn twoFileState.project_name ["b.py"]) "proj.b.f" = true ∧
    belongsTo (fileModuleQn twoFileState.project_name ["b.py"]) "proj.bc.d" = false ∧
    (twoFileState.remove_file_from_state ["b.py"]).function_registry.get "proj.b.f" =
      none ∧
    alookup (twoFileState.remove_file_from_state ["b.py"]).ast_cache ["b.py"] = none ∧
    (twoFileState.remove_file_from_state ["b.py"]).function_registry.get "proj.bc.d" =
      some "function" := by
  have h := c1_remove_file_complete twoFileState ["b.py"] (by decide)
  refine ⟨by decide, by decide, by decide, (h.1 "proj.b.f" (by decide)).1, h.2.1, ?_⟩
  have h2 := (h.2.2 "proj.bc.d" (by decide)).1
  rw [h2]
  decide

/-- A one-definition state for the C8 witness. -/
def oneFileState : GraphUpdater :=
  ⟨"proj", ((emptyFRT.insert "proj.x.f" "function").getD emptyFRT),
    [("f", {"proj.x.f"})], []⟩

/-- Witness for C8: removing the unknown file `y.py` twice and once, and the
unknown-file no-op, on a concrete one-definition state. -/
theorem c8_witness :
    (∀ q ∈ oneFileState.function_registry.keys,
      belongsTo (fileModuleQn oneFileState.project_name ["y.py"]) q = false) ∧
    alookup oneFileState.ast_cache ["y.py"] = none ∧
    (oneFileState.remove_file_from_state ["y.py"]).remove_file_from_state ["y.py"] =
      oneFileState.remove_file_from_state ["y.py"] ∧
    oneFileState.remove_file_from_state ["y.py"] = oneFileState := by
  have h := c8_remove_idempotent_noop oneFileState ["y.py"]
  exact ⟨by decide, rfl, h.1, h.2 (by decide) rfl⟩

/-- Witness for C3: a call in `b.py` to `p.a.f`, defined in `a.py`, which is
processed after `b.py`; the permuted order is also run. -/
theorem c3_witness :
    ([⟨["b.py"], [], ["p.a.f"]⟩, ⟨["a.py"], [("p.a.f", "function")], []⟩] :
        List FileEntry).Perm
      [⟨["a.py"], [("p.a.f", "function")], []⟩, ⟨["b.py"], [], ["p.a.f"]⟩] ∧
    (∃ reg reg2,
      processFiles emptyFRT
        [⟨["b.py"], [], ["p.a.f"]⟩, ⟨["a.py"], [("p.a.f", "function")], []⟩] = some reg ∧
      processFiles emptyFRT
        [⟨["a.py"], [("p.a.f", "function")], []⟩, ⟨["b.py"], [], ["p.a.f"]⟩] = some reg2 ∧
      reg.get "p.a.f" = some "function" ∧ reg2.get "p.a.f" = some "function" ∧
      runPipeline [⟨["b.py"], [], ["p.a.f"]⟩, ⟨["a.py"], [("p.a.f", "function")], []⟩] =
        some (resolveCalls reg
          [⟨["b.py"], [], ["p.a.f"]⟩, ⟨["a.py"], [("p.a.f", "function")], []⟩]) ∧
      runPipeline [⟨["a.py"], [("p.a.f", "function")], []⟩, ⟨["b.py"], [], ["p.a.f"]⟩] =
        some (resolveCalls reg2
          [⟨["a.py"], [("p.a.f", "function")], []⟩, ⟨["b.py"], [], ["p.a.f"]⟩])) :=
  ⟨by decide,
    c3_pass2_before_pass3
      [⟨["b.py"], [], ["p.a.f"]⟩, ⟨["a.py"], [("p.a.f", "function")], []⟩]
      [⟨["a.py"], [("p.a.f", "function")], []⟩, ⟨["b.py"], [], ["p.a.f"]⟩]
      (by decide) (by decide) (by decide)
      ⟨["a.py"], [("p.a.f", "function")], []⟩ ⟨["b.py"], [], ["p.a.f"]⟩
      "p.a.f" "function" (by decide) (by decide) (by decide) (by decide)⟩
